import Mathlib

/-!
Verification of the core of `oxidx_ollama.py`: the schema sanitizer
(`recursive_sanitize`), the response extractor (`extract_json_from_text`),
the MCP client handshake / `call_tool` reply processing, the tool-catalog
resolution in `main`, and the conversation-history bound.

Python values produced by the `json.loads` parser are embedded as the type
`Json`.  A Python `dict` is modelled as an insertion-ordered association
list with pairwise-distinct keys; `dict.__setitem__` is `insertSet`
(overwrite in place if the key exists, append otherwise), which is exactly
the CPython dict semantics.  Numbers are modelled as integers; non-integer
numerals (fractions, exponents, Infinity, NaN) are outside the model and
are treated as parse failures by the embedded `json.loads`.
-/

namespace Oxidx

/-- A JSON value as produced by the Python `json.loads` (with the integer
restriction noted above). `obj` keeps fields in insertion order. -/
inductive Json : Type where
  | null : Json
  | bool : Bool → Json
  | num : Int → Json
  | str : String → Json
  | arr : List Json → Json
  | obj : List (String × Json) → Json

mutual

/-- Textual size measure: a string counts its characters, containers count
their contents.  Every value parsed out of a string `s` has `jsize`
at most `s.length`, which justifies the recursion of the sanitizer. -/
def jsize : Json → Nat
  | .null => 1
  | .bool _ => 1
  | .num _ => 1
  | .str s => s.length + 1
  | .arr xs => jsizeList xs + 1
  | .obj fs => jsizeFields fs + 1

def jsizeList : List Json → Nat
  | [] => 0
  | x :: xs => jsize x + jsizeList xs

def jsizeFields : List (String × Json) → Nat
  | [] => 0
  | kv :: fs => kv.1.length + 1 + jsize kv.2 + jsizeFields fs

end

def isObj : Json → Bool
  | .obj _ => true
  | _ => false

def isArr : Json → Bool
  | .arr _ => true
  | _ => false

/-! ### The Python `str.strip` and the bracket test of `recursive_sanitize` -/

/-- ASCII whitespace stripped by the Python `str.strip` method. -/
def isPySpace (c : Char) : Bool :=
  c = ' ' || c = '\t' || c = '\n' || c = '\r' || c = '\x0b' || c = '\x0c'

/-- The `str.strip` operation on the character list. -/
def stripChars (l : List Char) : List Char :=
  ((l.dropWhile isPySpace).reverse.dropWhile isPySpace).reverse

/-- Python `text.strip` as a `String` function. -/
def pyStrip (s : String) : String := String.mk (stripChars s.data)

/-- Bracket test of `recursive_sanitize`: the stripped string starts with
an opening brace (resp. bracket) and ends with the matching closing one. -/
def bracketed (l : List Char) : Bool :=
  (l.head? == some '{' && l.getLast? == some '}') ||
  (l.head? == some '[' && l.getLast? == some ']')

/-! ### The embedded `json.loads`

A strict recursive-descent JSON parser over character lists, with a fuel
argument to make the nesting recursion structural.  It models the Python
`json.loads` on the JSON fragment without fractional/exponent numerals.
Duplicate object keys are collapsed exactly as CPython builds the dict
(first position, last value), see `dictInsertAll`. -/

/-- JSON inter-token whitespace accepted by `json.loads`. -/
def isJsonWs (c : Char) : Bool :=
  c = ' ' || c = '\t' || c = '\n' || c = '\r'

def skipWs : List Char → List Char
  | [] => []
  | c :: r => if isJsonWs c then skipWs r else c :: r

/-- Python dict assignment on an insertion-ordered association list:
overwrite in place when the key exists, append otherwise. -/
def insertSet (fs : List (String × Json)) (k : String) (v : Json) :
    List (String × Json) :=
  match fs with
  | [] => [(k, v)]
  | (k1, v1) :: rest =>
    if k1 = k then (k1, v) :: rest else (k1, v1) :: insertSet rest k v

/-- Build a Python dict by repeated assignment (collapses duplicate keys;
keeps first position, last value). -/
def dictInsertAll (acc : List (String × Json)) :
    List (String × Json) → List (String × Json)
  | [] => acc
  | (k, v) :: rest => dictInsertAll (insertSet acc k v) rest

def mkPyDict (fs : List (String × Json)) : List (String × Json) :=
  dictInsertAll [] fs

def hexVal (c : Char) : Option Nat :=
  if '0' ≤ c ∧ c ≤ '9' then some (c.toNat - '0'.toNat)
  else if 'a' ≤ c ∧ c ≤ 'f' then some (c.toNat - 'a'.toNat + 10)
  else if 'A' ≤ c ∧ c ≤ 'F' then some (c.toNat - 'A'.toNat + 10)
  else none

/-- Body of a JSON string literal, after the opening quote.  Returns the
decoded characters and the remainder after the closing quote.  Strict mode:
raw control characters and unknown escapes are rejected. -/
def parseStringBody : List Char → Option (List Char × List Char)
  | [] => none
  | '"' :: rest => some ([], rest)
  | '\\' :: 'u' :: h1 :: h2 :: h3 :: h4 :: rest =>
    match hexVal h1, hexVal h2, hexVal h3, hexVal h4 with
    | some a, some b, some c, some d =>
      (parseStringBody rest).map
        (fun p => (Char.ofNat (((a * 16 + b) * 16 + c) * 16 + d) :: p.1, p.2))
    | _, _, _, _ => none
  | '\\' :: e :: rest =>
    match
      (if e = '"' then some '"'
       else if e = '\\' then some '\\'
       else if e = '/' then some '/'
       else if e = 'b' then some '\x08'
       else if e = 'f' then some '\x0c'
       else if e = 'n' then some '\n'
       else if e = 'r' then some '\r'
       else if e = 't' then some '\t'
       else none) with
    | some c => (parseStringBody rest).map (fun p => (c :: p.1, p.2))
    | none => none
  | c :: rest =>
    if c.toNat < 32 then none
    else (parseStringBody rest).map (fun p => (c :: p.1, p.2))

def takeDigits : List Char → List Char × List Char
  | [] => ([], [])
  | c :: r =>
    if c.isDigit then
      let p := takeDigits r
      (c :: p.1, p.2)
    else ([], c :: r)

def digitsToNat (acc : Nat) : List Char → Nat
  | [] => acc
  | c :: r => digitsToNat (acc * 10 + (c.toNat - '0'.toNat)) r

/-- Digit run after the optional minus sign (no leading zeros).  A
following `.`, `e` or `E` is a fractional/exponent numeral, outside this
model. -/
def parseNumberCore (neg : Bool) (l : List Char) : Option (Json × List Char) :=
  let p := takeDigits l
  if p.1 = [] then none
  else if p.1.length > 1 ∧ p.1.head? = some '0' then none
  else if p.2.head? = some '.' ∨ p.2.head? = some 'e' ∨ p.2.head? = some 'E'
  then none
  else
    some (.num (if neg then -Int.ofNat (digitsToNat 0 p.1)
                else Int.ofNat (digitsToNat 0 p.1)), p.2)

/-- A JSON integer numeral: optional minus sign, then digits. -/
def parseNumber : List Char → Option (Json × List Char)
  | '-' :: r => parseNumberCore true r
  | l => parseNumberCore false l

mutual

def parseValue : Nat → List Char → Option (Json × List Char)
  | 0, _ => none
  | fuel + 1, l =>
    match skipWs l with
    | [] => none
    | c :: r =>
      if c = 'n' then
        match r with
        | 'u' :: 'l' :: 'l' :: r2 => some (.null, r2)
        | _ => none
      else if c = 't' then
        match r with
        | 'r' :: 'u' :: 'e' :: r2 => some (.bool true, r2)
        | _ => none
      else if c = 'f' then
        match r with
        | 'a' :: 'l' :: 's' :: 'e' :: r2 => some (.bool false, r2)
        | _ => none
      else if c = '"' then
        (parseStringBody r).map (fun p => (.str (String.mk p.1), p.2))
      else if c = '[' then
        match skipWs r with
        | ']' :: r2 => some (.arr [], r2)
        | r2 => (parseItems fuel r2).map (fun p => (.arr p.1, p.2))
      else if c = '{' then
        match skipWs r with
        | '}' :: r2 => some (.obj [], r2)
        | r2 => (parseFields fuel r2).map (fun p => (.obj (mkPyDict p.1), p.2))
      else parseNumber (c :: r)

def parseItems : Nat → List Char → Option (List Json × List Char)
  | 0, _ => none
  | fuel + 1, l =>
    match parseValue fuel l with
    | none => none
    | some (v, r) =>
      match skipWs r with
      | ',' :: r2 =>
        match parseItems fuel r2 with
        | none => none
        | some (xs, r3) => some (v :: xs, r3)
      | ']' :: r2 => some ([v], r2)
      | _ => none

def parseFields : Nat → List Char → Option (List (String × Json) × List Char)
  | 0, _ => none
  | fuel + 1, l =>
    match skipWs l with
    | '"' :: r =>
      match parseStringBody r with
      | none => none
      | some (kcs, r1) =>
        match skipWs r1 with
        | ':' :: r2 =>
          match parseValue fuel r2 with
          | none => none
          | some (v, r3) =>
            match skipWs r3 with
            | ',' :: r4 =>
              match parseFields fuel r4 with
              | none => none
              | some (fs, r5) => some ((String.mk kcs, v) :: fs, r5)
            | '}' :: r4 => some ([(String.mk kcs, v)], r4)
            | _ => none
        | _ => none
    | _ => none

end

/-- The embedded `json.loads`: parse one JSON value, allow only trailing
whitespace.  The fuel `2 * length + 2` dominates the recursion depth, which
grows by at most two per consumed character. -/
def json_loads (s : String) : Option Json :=
  match parseValue (2 * s.data.length + 2) s.data with
  | some (v, r) => if skipWs r = [] then some v else none
  | none => none

/-! ### `recursive_sanitize` (lines 90-118 of `oxidx_ollama.py`)

The Python function recurses into values decoded out of strings by
`json.loads`, so its recursion is not structural on `Json`; it is embedded
with a fuel argument (`sanitizeF`), and `recursive_sanitize` supplies the
fuel `jsize data`, which is enough: `sanitizeF_congr` below proves the
result is the same for every fuel `≥ jsize data`, so the fuel never runs
out and the embedding computes the full recursion. -/

def hasKey (fs : List (String × Json)) (k : String) : Bool :=
  fs.any (fun kv => kv.1 = k)

def lookupKey (fs : List (String × Json)) (k : String) : Option Json :=
  match fs with
  | [] => none
  | (k1, v) :: rest => if k1 = k then some v else lookupKey rest k

/-- First fix-up of the dict case: when the mapping has a `children` or
`props` key but no `type_name` key, inject `type_name = "VStack"`. -/
def fixType (nd : List (String × Json)) : List (String × Json) :=
  if (hasKey nd "children" || hasKey nd "props") && !hasKey nd "type_name"
  then insertSet nd "type_name" (.str "VStack") else nd

/-- Second fix-up: when `children` is present but not a list, replace it
with the empty list. -/
def fixChildren (nd : List (String × Json)) : List (String × Json) :=
  match lookupKey nd "children" with
  | some j => if isArr j then nd else insertSet nd "children" (.arr [])
  | none => nd

/-- Third fix-up: when `props` is present but not a dict, replace it with
the empty dict. -/
def fixProps (nd : List (String × Json)) : List (String × Json) :=
  match lookupKey nd "props" with
  | some j => if isObj j then nd else insertSet nd "props" (.obj [])
  | none => nd

/-- The three structural fix-ups applied to the freshly built `new_data`,
in source order. -/
def objFixups (nd : List (String × Json)) : List (String × Json) :=
  fixProps (fixChildren (fixType nd))

/-- Fuel-indexed embedding of `recursive_sanitize`.  The fuel only bounds
the recursion depth; `recursive_sanitize` below instantiates it so that it
never runs out. -/
def sanitizeF : Nat → Json → Json
  | 0, data => data
  | fuel + 1, data =>
    match data with
    | .str s =>
      let t := pyStrip s
      if bracketed t.data then
        match json_loads t with
        | some v => sanitizeF fuel v
        | none => .str t
      else .str t
    | .arr items => .arr ((items.map (sanitizeF fuel)).filter isObj)
    | .obj fs =>
      .obj (objFixups (mkPyDict (fs.map (fun kv => (kv.1, sanitizeF fuel kv.2)))))
    | other => other

/-- `recursive_sanitize(data)` from the source. -/
def recursive_sanitize (data : Json) : Json := sanitizeF (jsize data) data

/-! ### The structural guarantee predicate of §8 of the spec

`nodeOK` holds of a mapping when every `children` entry is a sequence of
mappings each again satisfying the guarantee and every `props` entry is a
mapping; it is vacuous on non-mappings.  Fuel-indexed for the same reason
as the sanitizer; `jsize` fuel suffices (`nodeOKF_congr`). -/

def nodeOKF : Nat → Json → Bool
  | 0, _ => false
  | fuel + 1, j =>
    match j with
    | .obj fs =>
      fs.all (fun kv =>
        (if kv.1 = "children" then
          (match kv.2 with
           | .arr ys => ys.all (fun y => isObj y && nodeOKF fuel y)
           | _ => false)
         else true) &&
        (if kv.1 = "props" then isObj kv.2 else true))
    | _ => true

def nodeOK (j : Json) : Bool := nodeOKF (jsize j) j

/-- Companion predicate: a sequence all of whose elements are mappings
satisfying the guarantee (vacuous on non-sequences). -/
def arrPart : Json → Bool
  | .arr ys => ys.all (fun y => isObj y && nodeOK y)
  | _ => true

/-! ### `extract_json_from_text` (lines 79-88) -/

/-- Split at the first occurrence of `sep` (`sep` nonempty): the part
before it and the part after it.  `none` when `sep` does not occur —
this is the Python containment test and `find` in one. -/
def splitFirst (sep : List Char) : List Char → Option (List Char × List Char)
  | [] => none
  | c :: rest =>
    if sep.isPrefixOf (c :: rest) then some ([], (c :: rest).drop sep.length)
    else (splitFirst sep rest).map (fun p => (c :: p.1, p.2))

def beforeFirst (sep l : List Char) : List Char :=
  match splitFirst sep l with
  | some p => p.1
  | none => l

/-- Narrowing to the fenced block: the source splits on the json fence
marker, takes element 1, splits that on the plain fence marker, takes
element 0, and strips.  The Python `split(sep)[1]` is the span from the
end of the first occurrence of `sep` to the next occurrence (or the end),
so it is `beforeFirst sep` of the part after the first occurrence. -/
def fencedNarrow (t : List Char) : List Char :=
  match splitFirst ("```json".data) t with
  | some p =>
    stripChars (beforeFirst ("```".data) (beforeFirst ("```json".data) p.2))
  | none => t

/-- Python `text.find` of a character, as an `Option` instead of `-1`. -/
def findIdxC (c : Char) : List Char → Option Nat
  | [] => none
  | x :: r => if x = c then some 0 else (findIdxC c r).map (· + 1)

/-- Python `text.rfind` of a character, as an `Option` instead of `-1`. -/
def rfindC (c : Char) (l : List Char) : Option Nat :=
  (findIdxC c l.reverse).map (fun k => l.length - 1 - k)

/-- Model of `extract_json_from_text` from the source. -/
def extract_json_from_text (text : String) : Option Json :=
  let t := fencedNarrow (stripChars text.data)
  match findIdxC '{' t, rfindC '}' t with
  | some s, some e => json_loads (String.mk ((t.drop s).take (e + 1 - s)))
  | _, _ => none

/-! ### Conversation history (lines 207-260) -/

/-- A role-tagged chat message. -/
structure Msg where
  role : String
  content : String
  deriving DecidableEq

/-- History bound applied at the top of each turn: when more than 6
messages have accumulated, keep only element 0.  (`length > 6` entails the
list is nonempty, so `take 1` is exactly the singleton of element 0.) -/
def truncateHist (msgs : List Msg) : List Msg :=
  if msgs.length > 6 then msgs.take 1 else msgs

/-- History after one loop iteration: truncate, append the user message,
then append whatever the turn produces (assistant reply and tool results,
in order). -/
def turnHistory (msgs : List Msg) (userMsg : Msg) (produced : List Msg) :
    List Msg :=
  (truncateHist msgs ++ [userMsg]) ++ produced

/-! ### Python dynamic-attribute semantics for the reply processing

The replies handed to `_handshake`, `call_tool` and the catalog resolver
are arbitrary `json.loads` outputs, and the source navigates them with
`.get`, `[...]` and `in`.  These helpers model the corresponding CPython
behaviour, `Except` carrying the exception class name. -/

/-- The Python `get` method with a default: only mappings have it;
anything else raises `AttributeError`. -/
def pyGetD (j : Json) (k : String) (d : Json) : Except String Json :=
  match j with
  | .obj fs => .ok ((lookupKey fs k).getD d)
  | _ => .error "AttributeError"

/-- Containment of a string `k` in `j`: key test on mappings, membership
on sequences, substring test on strings, `TypeError` otherwise. -/
def pyIn (k : String) (j : Json) : Except String Bool :=
  match j with
  | .obj fs => .ok (hasKey fs k)
  | .arr xs =>
    .ok (xs.any (fun x => match x with | .str s => s == k | _ => false))
  | .str s =>
    .ok (s == k || (splitFirst k.data s.data).isSome)
  | _ => .error "TypeError"

/-- Subscription by a string key: mapping lookup (`KeyError` when
absent), `TypeError` on anything else (string and sequence indices must
be integers). -/
def pySubscript (j : Json) (k : String) : Except String Json :=
  match j with
  | .obj fs =>
    match lookupKey fs k with
    | some v => .ok v
    | none => .error "KeyError"
  | _ => .error "TypeError"

/-- Subscription by an integer index: sequence element (`IndexError` past
the end), one-character string on strings, `KeyError` on string-keyed
mappings, `TypeError` otherwise. -/
def pyIndexNat (j : Json) (i : Nat) : Except String Json :=
  match j with
  | .arr xs =>
    match xs.get? i with
    | some v => .ok v
    | none => .error "IndexError"
  | .str s =>
    match s.data.get? i with
    | some c => .ok (.str (String.mk [c]))
    | none => .error "IndexError"
  | .obj _ => .error "KeyError"
  | _ => .error "TypeError"

/-- Simplified repr-escaping of a string (backslash and single quote). -/
def pyEscape (s : String) : String :=
  String.mk (s.data.foldr
    (fun c acc =>
      if c = '\\' then '\\' :: '\\' :: acc
      else if c = Char.ofNat 39 then '\\' :: Char.ofNat 39 :: acc
      else c :: acc) [])

/-- Fuel-indexed repr of a `json.loads` value, as CPython prints it
(`None`/`True`/`False`, single-quoted strings — exotic string escapes
simplified). -/
def pyReprF : Nat → Json → String
  | 0, _ => ""
  | fuel + 1, j =>
    match j with
    | .null => "None"
    | .bool true => "True"
    | .bool false => "False"
    | .num n => toString n
    | .str s => "\x27" ++ pyEscape s ++ "\x27"
    | .arr xs =>
      "[" ++ String.intercalate ", " (xs.map (pyReprF fuel)) ++ "]"
    | .obj fs =>
      "\x7b" ++
        String.intercalate ", "
          (fs.map (fun kv =>
            "\x27" ++ pyEscape kv.1 ++ "\x27: " ++ pyReprF fuel kv.2)) ++
      "\x7d"

def pyRepr (j : Json) : String := pyReprF (jsize j) j

/-- The Python str conversion of a `json.loads` value: identity on
strings, repr rendering otherwise. -/
def pyStr (j : Json) : String :=
  match j with
  | .str s => s
  | _ => pyRepr j

/-! ### `MCPClient._recv`, `_handshake` and `call_tool` (lines 35-75)

The transport is abstracted to the reply lines read by `_recv`; the empty
string is the closed-stream sentinel (`readline` returns the empty string
only at end of stream, on which `_recv` returns the empty dict). -/

/-- Model of `_recv`: an empty line (closed stream) yields the empty
dict; otherwise the line goes through `json.loads`, which raises on a
malformed line — nothing in `_handshake`, `call_tool` or the constructor
catches that. -/
def recvLine (line : String) : Except String Json :=
  if line = "" then .ok (.obj [])
  else
    match json_loads line with
    | some j => .ok j
    | none => .error "JSONDecodeError"

/-- Reply processing of `_handshake`: read and discard the `initialize`
reply, read the `tools/list` reply, and store the `tools` entry of the
`result` entry, each defaulted when the level is a dict without the
key. -/
def handshakeTools (initReply toolsReply : String) : Except String Json :=
  match recvLine initReply with
  | .error e => .error e
  | .ok _ =>
    match recvLine toolsReply with
    | .error e => .error e
    | .ok res =>
      match pyGetD res "result" (.obj []) with
      | .error e => .error e
      | .ok r => pyGetD r "tools" (.arr [])

/-- Extraction of the nested reply text: result, then content, then
element 0, then text. -/
def extractText (res : Json) : Except String Json :=
  match pySubscript res "result" with
  | .error e => .error e
  | .ok r =>
    match pySubscript r "content" with
    | .error e => .error e
    | .ok c =>
      match pyIndexNat c 0 with
      | .error e => .error e
      | .ok c0 => pySubscript c0 "text"

/-- Reply processing of `call_tool` on the parsed reply `res`: an `error`
entry yields the formatted error string (the `message` lookup is outside
any exception handler); otherwise the nested text is extracted, and only
`KeyError`/`IndexError` are caught and turned into the str rendering of
the reply. -/
def call_tool_reply (res : Json) : Except String Json :=
  match pyIn "error" res with
  | .error e => .error e
  | .ok true =>
    match pySubscript res "error" with
    | .error e => .error e
    | .ok eo =>
      match pySubscript eo "message" with
      | .error e => .error e
      | .ok m => .ok (.str ("❌ Error: " ++ pyStr m))
  | .ok false =>
    match extractText res with
    | .ok t => .ok t
    | .error e =>
      if e = "KeyError" ∨ e = "IndexError" then .ok (.str (pyStr res))
      else .error e

/-! ### Tool-catalog resolution in `main` (lines 147-162) -/

/-- The fixed fallback catalog `default_components`. -/
def defaultComponents : List String :=
  ["VStack", "HStack", "ZStack", "Button", "Label", "Input", "Image",
   "Chart"]

def defaultCatalog : Json := .arr (defaultComponents.map .str)

/-- Python truthiness of a `json.loads` value. -/
def pyTruthy : Json → Bool
  | .null => false
  | .bool b => b
  | .num n => n != 0
  | .str s => s != ""
  | .arr xs => !xs.isEmpty
  | .obj fs => !fs.isEmpty

/-- Lookup chain of the catalog resolver: element 0 of the tool list,
then `inputSchema`, `properties`, `type_name` (each defaulting to the
empty dict), then `enum` (defaulting to `None`). -/
def enumChain (tools : Json) : Except String Json :=
  match pyIndexNat tools 0 with
  | .error e => .error e
  | .ok t0 =>
    match pyGetD t0 "inputSchema" (.obj []) with
    | .error e => .error e
    | .ok s1 =>
      match pyGetD s1 "properties" (.obj []) with
      | .error e => .error e
      | .ok s2 =>
        match pyGetD s2 "type_name" (.obj []) with
        | .error e => .error e
        | .ok s3 => pyGetD s3 "enum" .null

/-- Catalog resolution: the value of `allowed_components` after the
exception-guarded lookup: any exception in the chain, a falsy tool list,
or a falsy `enum` falls back to the default catalog. -/
def resolveCatalog (tools : Json) : Json :=
  if pyTruthy tools then
    match enumChain tools with
    | .ok e => if pyTruthy e then e else defaultCatalog
    | .error _ => defaultCatalog
  else defaultCatalog

/-! ## Size lemmas -/

theorem one_le_jsize (v : Json) : 1 ≤ jsize v := by
  cases v <;> simp [jsize]

theorem jsize_le_jsizeList {x : Json} {xs : List Json} (h : x ∈ xs) :
    jsize x ≤ jsizeList xs := by
  induction xs with
  | nil => cases h
  | cons y ys ih =>
    rcases List.mem_cons.mp h with rfl | h2
    · simp [jsizeList]
    · have := ih h2
      simp [jsizeList]
      omega

theorem jsize_le_jsizeFields {kv : String × Json}
    {fs : List (String × Json)} (h : kv ∈ fs) :
    jsize kv.2 ≤ jsizeFields fs := by
  induction fs with
  | nil => cases h
  | cons p ps ih =>
    rcases List.mem_cons.mp h with rfl | h2
    · simp [jsizeFields]
      omega
    · have := ih h2
      obtain ⟨k1, v1⟩ := p
      simp [jsizeFields]
      omega

theorem skipWs_length (l : List Char) : (skipWs l).length ≤ l.length := by
  induction l with
  | nil => simp [skipWs]
  | cons c r ih =>
    by_cases hc : isJsonWs c = true
    · simp [skipWs, hc]
      omega
    · simp [skipWs, hc]

theorem parseStringBody_consume :
    ∀ l cs r, parseStringBody l = some (cs, r) →
      cs.length + r.length < l.length := by
  intro l
  induction l using parseStringBody.induct with
  | case1 =>
    intro cs r h
    simp [parseStringBody] at h
  | case2 rest =>
    intro cs r h
    simp [parseStringBody] at h
    obtain ⟨rfl, rfl⟩ := h
    simp
  | case3 h1 h2 h3 h4 rest a b c d hd hc hb ha ih =>
    intro cs r h
    simp only [parseStringBody, ha, hb, hc, hd, Option.map_eq_some'] at h
    obtain ⟨⟨cs1, r1⟩, hp, heq⟩ := h
    obtain ⟨rfl, rfl⟩ := Prod.mk.injEq .. ▸ heq
    have := ih cs1 r1 hp
    simp
    omega
  | case4 h1 h2 h3 h4 rest hnone =>
    intro cs r h
    simp only [parseStringBody] at h
    exact absurd h (by simp)
  | case5 e rest hne c hc ih =>
    intro cs r h
    simp only [parseStringBody, hc, Option.map_eq_some'] at h
    obtain ⟨⟨cs1, r1⟩, hp, heq⟩ := h
    obtain ⟨rfl, rfl⟩ := Prod.mk.injEq .. ▸ heq
    have := ih cs1 r1 hp
    simp
    omega
  | case6 e rest hne hc =>
    intro cs r h
    simp only [parseStringBody, hc] at h
    exact absurd h (by simp)
  | case7 c rest hq hu he hlt =>
    intro cs r h
    simp only [parseStringBody, if_pos hlt] at h
    exact absurd h (by simp)
  | case8 c rest hq hu he hlt ih =>
    intro cs r h
    simp only [parseStringBody, if_neg hlt, Option.map_eq_some'] at h
    obtain ⟨⟨cs1, r1⟩, hp, heq⟩ := h
    obtain ⟨rfl, rfl⟩ := Prod.mk.injEq .. ▸ heq
    have := ih cs1 r1 hp
    simp
    omega

theorem takeDigits_length (l : List Char) :
    (takeDigits l).1.length + (takeDigits l).2.length = l.length := by
  induction l with
  | nil => simp [takeDigits]
  | cons c r ih =>
    by_cases hc : c.isDigit = true
    · simp [takeDigits, hc]
      omega
    · simp [takeDigits, hc]

theorem parseNumberCore_consume {neg : Bool} {l : List Char} {v : Json}
    {r : List Char} (h : parseNumberCore neg l = some (v, r)) :
    jsize v + r.length ≤ l.length := by
  have hlen := takeDigits_length l
  cases neg <;> simp [parseNumberCore] at h <;>
    obtain ⟨hne, -, -, rfl, rfl⟩ := h <;>
  · have h3 : 1 ≤ (takeDigits l).1.length := by
      cases hd : (takeDigits l).1 with
      | nil => exact absurd hd hne
      | cons a b => simp [hd]
    simp [jsize]
    omega

theorem parseNumber_consume {l : List Char} {v : Json} {r : List Char}
    (h : parseNumber l = some (v, r)) : jsize v + r.length ≤ l.length := by
  unfold parseNumber at h
  split at h
  · next r1 =>
    have := parseNumberCore_consume h
    simp
    omega
  · exact parseNumberCore_consume h

theorem insertSet_jsizeFields_le (fs : List (String × Json)) (k : String)
    (v : Json) :
    jsizeFields (insertSet fs k v) ≤ jsizeFields fs + (k.length + 1 + jsize v) := by
  induction fs with
  | nil => simp [insertSet, jsizeFields]
  | cons p ps ih =>
    obtain ⟨k1, v1⟩ := p
    by_cases hk : k1 = k
    · simp [insertSet, hk, jsizeFields]
      omega
    · simp [insertSet, hk, jsizeFields]
      omega

theorem dictInsertAll_jsizeFields_le (l acc : List (String × Json)) :
    jsizeFields (dictInsertAll acc l) ≤ jsizeFields acc + jsizeFields l := by
  induction l generalizing acc with
  | nil => simp [dictInsertAll, jsizeFields]
  | cons p ps ih =>
    obtain ⟨k, v⟩ := p
    calc jsizeFields (dictInsertAll (insertSet acc k v) ps)
        ≤ jsizeFields (insertSet acc k v) + jsizeFields ps := ih _
      _ ≤ jsizeFields acc + (k.length + 1 + jsize v) + jsizeFields ps :=
          Nat.add_le_add_right (insertSet_jsizeFields_le ..) _
      _ = jsizeFields acc + jsizeFields ((k, v) :: ps) := by
          simp [jsizeFields]
          omega

theorem mkPyDict_jsizeFields_le (l : List (String × Json)) :
    jsizeFields (mkPyDict l) ≤ jsizeFields l := by
  have := dictInsertAll_jsizeFields_le l []
  simpa [mkPyDict, jsizeFields] using this

theorem string_mk_length (cs : List Char) : (String.mk cs).length = cs.length :=
  rfl

/-- Joint consumption bound for the three mutual parsers: a parsed value
is `jsize`-bounded by the number of characters consumed. -/
theorem parse_consume (fuel : Nat) :
    (∀ l v r, parseValue fuel l = some (v, r) →
      jsize v + r.length ≤ l.length) ∧
    (∀ l xs r, parseItems fuel l = some (xs, r) →
      jsizeList xs + r.length + 1 ≤ l.length) ∧
    (∀ l fs r, parseFields fuel l = some (fs, r) →
      jsizeFields fs + r.length + 1 ≤ l.length) := by
  induction fuel with
  | zero =>
    refine ⟨?_, ?_, ?_⟩ <;> intro l a r h <;>
      simp [parseValue, parseItems, parseFields] at h
  | succ n ih =>
    obtain ⟨ihV, ihI, ihF⟩ := ih
    refine ⟨?_, ?_, ?_⟩
    · intro l v r h
      have hsw := skipWs_length l
      rw [parseValue] at h
      cases hl : skipWs l with
      | nil => rw [hl] at h; simp at h
      | cons c cr =>
        rw [hl] at h
        dsimp only at h
        rw [hl] at hsw
        simp only [List.length_cons] at hsw
        by_cases hn : c = 'n'
        · rw [if_pos hn] at h
          split at h
          · next r2 heq =>
            simp only [Option.some.injEq, Prod.mk.injEq] at h
            obtain ⟨rfl, rfl⟩ := h
            simp [jsize] at hsw ⊢
            omega
          · simp at h
        · rw [if_neg hn] at h
          by_cases ht : c = 't'
          · rw [if_pos ht] at h
            split at h
            · next r2 heq =>
              simp only [Option.some.injEq, Prod.mk.injEq] at h
              obtain ⟨rfl, rfl⟩ := h
              simp [jsize] at hsw ⊢
              omega
            · simp at h
          · rw [if_neg ht] at h
            by_cases hf : c = 'f'
            · rw [if_pos hf] at h
              split at h
              · next r2 heq =>
                simp only [Option.some.injEq, Prod.mk.injEq] at h
                obtain ⟨rfl, rfl⟩ := h
                simp [jsize] at hsw ⊢
                omega
              · simp at h
            · rw [if_neg hf] at h
              by_cases hq : c = '"'
              · rw [if_pos hq] at h
                rw [Option.map_eq_some'] at h
                obtain ⟨⟨cs, r2⟩, hp, hf2⟩ := h
                obtain ⟨rfl, rfl⟩ := Prod.mk.injEq .. ▸ hf2
                have := parseStringBody_consume cr cs r2 hp
                simp [jsize, string_mk_length]
                omega
              · rw [if_neg hq] at h
                by_cases hb : c = '['
                · rw [if_pos hb] at h
                  have hsw2 := skipWs_length cr
                  split at h
                  · next r2 heq =>
                    simp only [Option.some.injEq, Prod.mk.injEq] at h
                    obtain ⟨rfl, rfl⟩ := h
                    rw [heq] at hsw2
                    simp [jsize, jsizeList] at hsw2 ⊢
                    omega
                  · rw [Option.map_eq_some'] at h
                    obtain ⟨⟨xs, r2⟩, hp, hf2⟩ := h
                    obtain ⟨rfl, rfl⟩ := Prod.mk.injEq .. ▸ hf2
                    have := ihI (skipWs cr) xs r2 hp
                    simp [jsize]
                    omega
                · rw [if_neg hb] at h
                  by_cases hc : c = '{'
                  · rw [if_pos hc] at h
                    have hsw2 := skipWs_length cr
                    split at h
                    · next r2 heq =>
                      simp only [Option.some.injEq, Prod.mk.injEq] at h
                      obtain ⟨rfl, rfl⟩ := h
                      rw [heq] at hsw2
                      simp [jsize, jsizeFields] at hsw2 ⊢
                      omega
                    · rw [Option.map_eq_some'] at h
                      obtain ⟨⟨fs, r2⟩, hp, hf2⟩ := h
                      obtain ⟨rfl, rfl⟩ := Prod.mk.injEq .. ▸ hf2
                      have h1 := ihF (skipWs cr) fs r2 hp
                      have h2 := mkPyDict_jsizeFields_le fs
                      simp [jsize]
                      omega
                  · rw [if_neg hc] at h
                    have := parseNumber_consume h
                    simp at this ⊢
                    omega
    · intro l xs r h
      rw [parseItems] at h
      cases hv : parseValue n l with
      | none => rw [hv] at h; simp at h
      | some p =>
        obtain ⟨v, r1⟩ := p
        rw [hv] at h
        dsimp only at h
        have hval := ihV l v r1 hv
        have hsw2 := skipWs_length r1
        split at h
        · next r2 heq =>
          cases hi : parseItems n r2 with
          | none => rw [hi] at h; simp at h
          | some q =>
            obtain ⟨xs2, r3⟩ := q
            rw [hi] at h
            dsimp only at h
            simp only [Option.some.injEq, Prod.mk.injEq] at h
            obtain ⟨rfl, rfl⟩ := h
            have hrest := ihI r2 xs2 r3 hi
            rw [heq] at hsw2
            simp only [List.length_cons] at hsw2
            simp [jsizeList]
            omega
        · next r2 heq =>
          simp only [Option.some.injEq, Prod.mk.injEq] at h
          obtain ⟨rfl, rfl⟩ := h
          rw [heq] at hsw2
          simp only [List.length_cons] at hsw2
          simp [jsizeList]
          omega
        · simp at h
    · intro l fs r h
      rw [parseFields] at h
      have hsw := skipWs_length l
      split at h
      · next kr heq =>
        rw [heq] at hsw
        simp only [List.length_cons] at hsw
        cases hk : parseStringBody kr with
        | none => rw [hk] at h; simp at h
        | some p =>
          obtain ⟨kcs, r1⟩ := p
          rw [hk] at h
          dsimp only at h
          have hkey := parseStringBody_consume kr kcs r1 hk
          have hsw2 := skipWs_length r1
          split at h
          · next r2 heq2 =>
            rw [heq2] at hsw2
            simp only [List.length_cons] at hsw2
            cases hv : parseValue n r2 with
            | none => rw [hv] at h; simp at h
            | some q =>
              obtain ⟨v, r3⟩ := q
              rw [hv] at h
              dsimp only at h
              have hval := ihV r2 v r3 hv
              have hsw3 := skipWs_length r3
              split at h
              · next r4 heq3 =>
                cases hrest : parseFields n r4 with
                | none => rw [hrest] at h; simp at h
                | some q2 =>
                  obtain ⟨fs2, r5⟩ := q2
                  rw [hrest] at h
                  dsimp only at h
                  simp only [Option.some.injEq, Prod.mk.injEq] at h
                  obtain ⟨rfl, rfl⟩ := h
                  have htail := ihF r4 fs2 r5 hrest
                  rw [heq3] at hsw3
                  simp only [List.length_cons] at hsw3
                  simp [jsizeFields, string_mk_length]
                  omega
              · next r4 heq3 =>
                simp only [Option.some.injEq, Prod.mk.injEq] at h
                obtain ⟨rfl, rfl⟩ := h
                rw [heq3] at hsw3
                simp only [List.length_cons] at hsw3
                simp [jsizeFields, string_mk_length]
                omega
              · simp at h
          · simp at h
      · simp at h

/-- A value accepted by the embedded `json.loads` is `jsize`-bounded by
the length of the string it was decoded from. -/
theorem json_loads_size {s : String} {v : Json} (h : json_loads s = some v) :
    jsize v ≤ s.length := by
  unfold json_loads at h
  cases hp : parseValue (2 * s.data.length + 2) s.data with
  | none => rw [hp] at h; simp at h
  | some p =>
    obtain ⟨w, r⟩ := p
    rw [hp] at h
    dsimp only at h
    have hcons := (parse_consume (2 * s.data.length + 2)).1 s.data w r hp
    by_cases hws : skipWs r = []
    · rw [if_pos hws] at h
      have hv : w = v := by simpa using h
      subst hv
      have hlen : s.length = s.data.length := rfl
      omega
    · rw [if_neg hws] at h
      simp at h

/-! ## `str.strip` lemmas -/

theorem stripChars_length_le (l : List Char) :
    (stripChars l).length ≤ l.length := by
  unfold stripChars
  have h1 : (l.dropWhile isPySpace).length ≤ l.length :=
    (List.dropWhile_suffix _).length_le
  have h2 : ((l.dropWhile isPySpace).reverse.dropWhile isPySpace).length ≤
      (l.dropWhile isPySpace).reverse.length :=
    (List.dropWhile_suffix _).length_le
  simp at h2 ⊢
  omega

theorem dropWhile_head_false {p : Char → Bool} :
    ∀ {l : List Char} {c : Char} {r : List Char},
      l.dropWhile p = c :: r → p c = false := by
  intro l
  induction l with
  | nil => intro c r h; simp at h
  | cons a as ih =>
    intro c r h
    by_cases ha : p a = true
    · rw [List.dropWhile_cons_of_pos ha] at h
      exact ih h
    · rw [List.dropWhile_cons_of_neg ha] at h
      cases h
      simpa using ha

theorem dropWhile_dropWhile (p : Char → Bool) (l : List Char) :
    (l.dropWhile p).dropWhile p = l.dropWhile p := by
  cases hd : l.dropWhile p with
  | nil => simp
  | cons c r =>
    exact List.dropWhile_cons_of_neg (by simp [dropWhile_head_false hd])

/-- The ends of a stripped list are not whitespace. -/
theorem stripChars_edges (l : List Char) :
    (∀ c, (stripChars l).head? = some c → isPySpace c = false) ∧
    (∀ c, (stripChars l).getLast? = some c → isPySpace c = false) := by
  constructor
  · intro c hc
    unfold stripChars at hc
    rw [List.head?_reverse] at hc
    cases hBc : (l.dropWhile isPySpace).reverse.dropWhile isPySpace with
    | nil => rw [hBc] at hc; simp at hc
    | cons a as =>
      rw [hBc] at hc
      have hsuf : (l.dropWhile isPySpace).reverse.dropWhile isPySpace <:+
          (l.dropWhile isPySpace).reverse := List.dropWhile_suffix _
      obtain ⟨t, ht⟩ := hsuf
      rw [hBc] at ht
      have h1 : (l.dropWhile isPySpace).reverse.getLast? = some c := by
        rw [← ht, List.getLast?_append_of_ne_nil _ (by simp)]
        exact hc
      rw [List.getLast?_reverse] at h1
      cases hAc : l.dropWhile isPySpace with
      | nil => rw [hAc] at h1; simp at h1
      | cons a2 as2 =>
        rw [hAc] at h1
        simp at h1
        subst h1
        exact dropWhile_head_false hAc
  · intro c hc
    unfold stripChars at hc
    rw [List.getLast?_reverse] at hc
    cases hBc : (l.dropWhile isPySpace).reverse.dropWhile isPySpace with
    | nil => rw [hBc] at hc; simp at hc
    | cons a as =>
      rw [hBc] at hc
      simp at hc
      subst hc
      exact dropWhile_head_false hBc

/-- Stripping is the identity on a list whose ends are not whitespace. -/
theorem stripChars_eq_self {m : List Char}
    (h1 : ∀ c, m.head? = some c → isPySpace c = false)
    (h2 : ∀ c, m.getLast? = some c → isPySpace c = false) :
    stripChars m = m := by
  unfold stripChars
  have hd1 : m.dropWhile isPySpace = m := by
    cases hm : m with
    | nil => simp
    | cons a as =>
      apply List.dropWhile_cons_of_neg
      simp [h1 a (by rw [hm]; rfl)]
  rw [hd1]
  have hd2 : m.reverse.dropWhile isPySpace = m.reverse := by
    cases hm : m.reverse with
    | nil => simp
    | cons a as =>
      apply List.dropWhile_cons_of_neg
      have hla : m.getLast? = some a := by rw [← List.head?_reverse, hm]; rfl
      simp [h2 a hla]
  rw [hd2, List.reverse_reverse]

theorem stripChars_idem (l : List Char) :
    stripChars (stripChars l) = stripChars l :=
  stripChars_eq_self (stripChars_edges l).1 (stripChars_edges l).2

theorem pyStrip_idem (s : String) : pyStrip (pyStrip s) = pyStrip s := by
  unfold pyStrip
  rw [show (String.mk (stripChars s.data)).data = stripChars s.data from rfl,
    stripChars_idem]

theorem pyStrip_length_le (s : String) : (pyStrip s).length ≤ s.length := by
  have h := stripChars_length_le s.data
  simpa [pyStrip, string_mk_length] using h

/-! ## Fuel irrelevance for the sanitizer: with fuel at least `jsize v`
the recursion never bottoms out, so `recursive_sanitize` computes the full
Python recursion. -/

theorem sanitizeF_congr_aux (n : Nat) :
    ∀ v f g, jsize v ≤ n → jsize v ≤ f → jsize v ≤ g →
      sanitizeF f v = sanitizeF g v := by
  induction n with
  | zero =>
    intro v f g h0 _ _
    have := one_le_jsize v
    omega
  | succ n ih =>
    intro v f g hn hf hg
    have h1 := one_le_jsize v
    cases f with
    | zero => omega
    | succ f =>
      cases g with
      | zero => omega
      | succ g =>
        cases v with
        | null => rfl
        | bool b => rfl
        | num m => rfl
        | str s =>
          simp only [sanitizeF]
          split
          · cases hv : json_loads (pyStrip s) with
            | none => rfl
            | some w =>
              have hw : jsize w ≤ (pyStrip s).length := json_loads_size hv
              have hps := pyStrip_length_le s
              have hjs : jsize (Json.str s) = s.length + 1 := by simp [jsize]
              exact ih w f g (by omega) (by omega) (by omega)
          · rfl
        | arr items =>
          simp only [sanitizeF, Json.arr.injEq]
          have hmap : items.map (sanitizeF f) = items.map (sanitizeF g) := by
            apply List.map_congr_left
            intro x hx
            have hxs := jsize_le_jsizeList hx
            have hjs : jsize (Json.arr items) = jsizeList items + 1 := by
              simp [jsize]
            exact ih x f g (by omega) (by omega) (by omega)
          rw [hmap]
        | obj fs =>
          simp only [sanitizeF, Json.obj.injEq]
          have hmap : fs.map (fun kv => (kv.1, sanitizeF f kv.2)) =
              fs.map (fun kv => (kv.1, sanitizeF g kv.2)) := by
            apply List.map_congr_left
            intro kv hkv
            have hxs := jsize_le_jsizeFields hkv
            have hjs : jsize (Json.obj fs) = jsizeFields fs + 1 := by
              simp [jsize]
            have : sanitizeF f kv.2 = sanitizeF g kv.2 :=
              ih kv.2 f g (by omega) (by omega) (by omega)
            rw [this]
          rw [hmap]

theorem sanitizeF_congr {v : Json} {f g : Nat} (hf : jsize v ≤ f)
    (hg : jsize v ≤ g) : sanitizeF f v = sanitizeF g v :=
  sanitizeF_congr_aux (jsize v) v f g le_rfl hf hg

theorem sanitizeF_eq_sanitize {v : Json} {f : Nat} (hf : jsize v ≤ f) :
    sanitizeF f v = recursive_sanitize v :=
  sanitizeF_congr hf le_rfl

/-! ## Unfolding equations of `recursive_sanitize`, mirroring the four
branches of the Python function. -/

theorem san_null : recursive_sanitize .null = .null := rfl

theorem san_bool (b : Bool) : recursive_sanitize (.bool b) = .bool b := rfl

theorem san_num (n : Int) : recursive_sanitize (.num n) = .num n := rfl

theorem san_str (s : String) :
    recursive_sanitize (.str s) =
      (if bracketed (pyStrip s).data then
        match json_loads (pyStrip s) with
        | some v => recursive_sanitize v
        | none => .str (pyStrip s)
      else .str (pyStrip s)) := by
  unfold recursive_sanitize
  have hjs : jsize (Json.str s) = s.length + 1 := by simp [jsize]
  rw [hjs]
  simp only [sanitizeF]
  split
  · cases hv : json_loads (pyStrip s) with
    | none => rfl
    | some w =>
      have hw : jsize w ≤ (pyStrip s).length := json_loads_size hv
      have hps := pyStrip_length_le s
      exact sanitizeF_eq_sanitize (by omega)
  · rfl

theorem san_arr (items : List Json) :
    recursive_sanitize (.arr items) =
      .arr ((items.map recursive_sanitize).filter isObj) := by
  unfold recursive_sanitize
  have hjs : jsize (Json.arr items) = jsizeList items + 1 := by simp [jsize]
  rw [hjs]
  simp only [sanitizeF, Json.arr.injEq]
  have hmap : items.map (sanitizeF (jsizeList items)) =
      items.map (fun x => sanitizeF (jsize x) x) := by
    apply List.map_congr_left
    intro x hx
    exact sanitizeF_congr (jsize_le_jsizeList hx) le_rfl
  rw [hmap]

theorem san_obj (fs : List (String × Json)) :
    recursive_sanitize (.obj fs) =
      .obj (objFixups (mkPyDict
        (fs.map (fun kv => (kv.1, recursive_sanitize kv.2))))) := by
  unfold recursive_sanitize
  have hjs : jsize (Json.obj fs) = jsizeFields fs + 1 := by simp [jsize]
  rw [hjs]
  simp only [sanitizeF, Json.obj.injEq]
  have hmap : fs.map (fun kv => (kv.1, sanitizeF (jsizeFields fs) kv.2)) =
      fs.map (fun kv => (kv.1, sanitizeF (jsize kv.2) kv.2)) := by
    apply List.map_congr_left
    intro kv hkv
    rw [sanitizeF_congr (jsize_le_jsizeFields hkv) le_rfl]
  rw [hmap]

/-! ## Association-list (Python dict) lemmas -/

theorem lookup_insertSet (fs : List (String × Json)) (k : String) (v : Json)
    (q : String) :
    lookupKey (insertSet fs k v) q =
      if q = k then some v else lookupKey fs q := by
  induction fs with
  | nil =>
    by_cases hq : k = q
    · subst hq
      simp [insertSet, lookupKey]
    · have hq2 : ¬q = k := fun h => hq h.symm
      simp [insertSet, lookupKey, hq, hq2]
  | cons p ps ih =>
    obtain ⟨k1, v1⟩ := p
    by_cases h1 : k1 = k
    · subst h1
      by_cases hq : k1 = q
      · subst hq
        simp [insertSet, lookupKey]
      · have hq2 : ¬q = k1 := fun h => hq h.symm
        simp [insertSet, lookupKey, hq, hq2]
    · by_cases hq : k1 = q
      · subst hq
        have hq2 : ¬k1 = k := h1
        simp [insertSet, lookupKey, h1, hq2]
      · simp [insertSet, lookupKey, h1, hq, ih]

theorem hasKey_eq_isSome_lookup (fs : List (String × Json)) (k : String) :
    hasKey fs k = (lookupKey fs k).isSome := by
  induction fs with
  | nil => simp [hasKey, lookupKey]
  | cons p ps ih =>
    obtain ⟨k1, v1⟩ := p
    by_cases h1 : k1 = k
    · simp [hasKey, lookupKey, h1]
    · simp [hasKey, lookupKey, h1]
      simpa [hasKey] using ih

theorem hasKey_insertSet (fs : List (String × Json)) (k : String) (v : Json)
    (q : String) :
    hasKey (insertSet fs k v) q = if q = k then true else hasKey fs q := by
  rw [hasKey_eq_isSome_lookup, lookup_insertSet, hasKey_eq_isSome_lookup]
  by_cases hq : q = k <;> simp [hq]

theorem lookup_mem {fs : List (String × Json)} {k : String} {v : Json}
    (h : lookupKey fs k = some v) : (k, v) ∈ fs := by
  induction fs with
  | nil => simp [lookupKey] at h
  | cons p ps ih =>
    obtain ⟨k1, v1⟩ := p
    by_cases h1 : k1 = k
    · subst h1
      simp [lookupKey] at h
      subst h
      simp
    · simp [lookupKey, h1] at h
      exact List.mem_cons_of_mem _ (ih h)

theorem mem_lookup_of_nodup {fs : List (String × Json)} {k : String}
    {v : Json} (hnd : (fs.map Prod.fst).Nodup) (h : (k, v) ∈ fs) :
    lookupKey fs k = some v := by
  induction fs with
  | nil => cases h
  | cons p ps ih =>
    obtain ⟨k1, v1⟩ := p
    simp at hnd
    rcases List.mem_cons.mp h with heq | hmem
    · cases heq
      simp [lookupKey]
    · have hk1 : k1 ≠ k := by
        intro hk
        subst hk
        exact hnd.1 v (by simpa using hmem)
      simp [lookupKey, hk1]
      exact ih hnd.2 hmem

theorem insertSet_keys (fs : List (String × Json)) (k : String) (v : Json) :
    (insertSet fs k v).map Prod.fst =
      if k ∈ fs.map Prod.fst then fs.map Prod.fst
      else fs.map Prod.fst ++ [k] := by
  induction fs with
  | nil => simp [insertSet]
  | cons p ps ih =>
    obtain ⟨k1, v1⟩ := p
    by_cases h1 : k1 = k
    · subst h1
      simp [insertSet]
    · have hne : ¬k = k1 := fun h => h1 h.symm
      by_cases h2 : k ∈ ps.map Prod.fst
      · simp [insertSet, h1, ih, h2, hne]
      · simp [insertSet, h1, ih, h2, hne]

theorem insertSet_nodup {fs : List (String × Json)} (k : String) (v : Json)
    (hnd : (fs.map Prod.fst).Nodup) :
    ((insertSet fs k v).map Prod.fst).Nodup := by
  rw [insertSet_keys]
  by_cases h2 : k ∈ fs.map Prod.fst
  · simpa [h2] using hnd
  · simp [h2, List.nodup_append, hnd, h2]

theorem mem_insertSet {fs : List (String × Json)} {k : String} {v : Json}
    {kv : String × Json} (h : kv ∈ insertSet fs k v) :
    kv ∈ fs ∨ kv = (k, v) := by
  induction fs with
  | nil =>
    simp [insertSet] at h
    right
    simp [h]
  | cons p ps ih =>
    obtain ⟨k1, v1⟩ := p
    by_cases h1 : k1 = k
    · subst h1
      simp [insertSet] at h
      rcases h with h | h
      · right; simp [h]
      · left; exact List.mem_cons_of_mem _ h
    · simp [insertSet, h1] at h
      rcases h with h | h
      · left; simp [h]
      · rcases ih h with hm | hm
        · left; exact List.mem_cons_of_mem _ hm
        · right; exact hm

theorem mem_dictInsertAll {l acc : List (String × Json)}
    {kv : String × Json} (h : kv ∈ dictInsertAll acc l) :
    kv ∈ acc ∨ kv ∈ l := by
  induction l generalizing acc with
  | nil => left; simpa [dictInsertAll] using h
  | cons p ps ih =>
    obtain ⟨k, v⟩ := p
    rw [dictInsertAll] at h
    rcases ih h with hm | hm
    · rcases mem_insertSet hm with hm2 | hm2
      · left; exact hm2
      · right; simp [hm2]
    · right; exact List.mem_cons_of_mem _ hm

theorem dictInsertAll_nodup {l acc : List (String × Json)}
    (hnd : (acc.map Prod.fst).Nodup) :
    ((dictInsertAll acc l).map Prod.fst).Nodup := by
  induction l generalizing acc with
  | nil => simpa [dictInsertAll] using hnd
  | cons p ps ih =>
    obtain ⟨k, v⟩ := p
    rw [dictInsertAll]
    exact ih (insertSet_nodup k v hnd)

theorem mkPyDict_nodup (l : List (String × Json)) :
    ((mkPyDict l).map Prod.fst).Nodup :=
  dictInsertAll_nodup (by simp)

theorem hasKey_dictInsertAll (l acc : List (String × Json)) (q : String) :
    hasKey (dictInsertAll acc l) q = (hasKey acc q || hasKey l q) := by
  induction l generalizing acc with
  | nil => simp [dictInsertAll, hasKey]
  | cons p ps ih =>
    obtain ⟨k, v⟩ := p
    rw [dictInsertAll, ih, hasKey_insertSet]
    by_cases hq : q = k
    · subst hq
      simp [hasKey]
    · have hkq : ¬k = q := fun h => hq h.symm
      simp [hasKey, hq, hkq]

theorem hasKey_mkPyDict (l : List (String × Json)) (q : String) :
    hasKey (mkPyDict l) q = hasKey l q := by
  rw [mkPyDict, hasKey_dictInsertAll]
  simp [hasKey]

theorem insertSet_of_not_mem {acc : List (String × Json)} {k : String}
    (v : Json) (h : ∀ kv ∈ acc, kv.1 ≠ k) :
    insertSet acc k v = acc ++ [(k, v)] := by
  induction acc with
  | nil => simp [insertSet]
  | cons a as ih =>
    obtain ⟨ka, va⟩ := a
    have hka : ka ≠ k := h (ka, va) (by simp)
    simp [insertSet, hka]
    exact ih (fun kv hm => h kv (List.mem_cons_of_mem _ hm))

theorem dictInsertAll_eq_append {l acc : List (String × Json)}
    (hnd : (l.map Prod.fst).Nodup)
    (hdis : ∀ kv ∈ l, ∀ kv2 ∈ acc, kv2.1 ≠ kv.1) :
    dictInsertAll acc l = acc ++ l := by
  induction l generalizing acc with
  | nil => simp [dictInsertAll]
  | cons p ps ih =>
    obtain ⟨k, v⟩ := p
    rw [dictInsertAll]
    rw [insertSet_of_not_mem v (fun kv hm => hdis (k, v) (by simp) kv hm)]
    simp at hnd
    rw [ih hnd.2 ?_]
    · simp
    · rintro ⟨kk, kvv⟩ hkv kv2 hkv2
      rcases List.mem_append.mp hkv2 with hacc | hsing
      · exact hdis (kk, kvv) (List.mem_cons_of_mem _ hkv) kv2 hacc
      · simp at hsing
        subst hsing
        simp only
        intro hkk
        exact hnd.1 kvv (hkk ▸ hkv)

theorem mkPyDict_eq_self {l : List (String × Json)}
    (hnd : (l.map Prod.fst).Nodup) : mkPyDict l = l := by
  rw [mkPyDict, dictInsertAll_eq_append hnd (by simp)]
  simp

/-- Mapping a function that is the identity on every value of a list of
fields is the identity. -/
theorem map_values_id {fs : List (String × Json)} {f : Json → Json}
    (h : ∀ kv ∈ fs, f kv.2 = kv.2) :
    fs.map (fun kv => (kv.1, f kv.2)) = fs := by
  induction fs with
  | nil => simp
  | cons p ps ih =>
    simp only [List.map_cons]
    rw [h p (by simp), ih (fun kv hm => h kv (List.mem_cons_of_mem _ hm))]

/-! ## Fix-up lemmas -/

theorem lookup_fixType_of_ne (nd : List (String × Json)) {q : String}
    (hq : q ≠ "type_name") :
    lookupKey (fixType nd) q = lookupKey nd q := by
  unfold fixType
  split
  · rw [lookup_insertSet, if_neg hq]
  · rfl

theorem hasKey_fixType_of_ne (nd : List (String × Json)) {q : String}
    (hq : q ≠ "type_name") :
    hasKey (fixType nd) q = hasKey nd q := by
  rw [hasKey_eq_isSome_lookup, lookup_fixType_of_ne nd hq,
    hasKey_eq_isSome_lookup]

theorem hasKey_fixChildren (nd : List (String × Json)) (q : String) :
    hasKey (fixChildren nd) q = hasKey nd q := by
  unfold fixChildren
  cases hc : lookupKey nd "children" with
  | none => rfl
  | some j =>
    dsimp only
    split
    · rfl
    · rw [hasKey_insertSet]
      by_cases hq : q = "children"
      · subst hq
        rw [if_pos rfl, hasKey_eq_isSome_lookup, hc]
        rfl
      · rw [if_neg hq]

theorem lookup_fixChildren_of_ne (nd : List (String × Json)) {q : String}
    (hq : q ≠ "children") :
    lookupKey (fixChildren nd) q = lookupKey nd q := by
  unfold fixChildren
  cases hc : lookupKey nd "children" with
  | none => rfl
  | some j =>
    dsimp only
    split
    · rfl
    · rw [lookup_insertSet, if_neg hq]

theorem lookup_fixChildren_children (nd : List (String × Json)) :
    lookupKey (fixChildren nd) "children" =
      (lookupKey nd "children").map (fun j => if isArr j then j else .arr []) := by
  unfold fixChildren
  cases hc : lookupKey nd "children" with
  | none => simp [hc]
  | some j =>
    dsimp only
    split
    · next h => simp [hc, h]
    · next h =>
      rw [lookup_insertSet, if_pos rfl]
      simp [hc, h]

theorem hasKey_fixProps (nd : List (String × Json)) (q : String) :
    hasKey (fixProps nd) q = hasKey nd q := by
  unfold fixProps
  cases hc : lookupKey nd "props" with
  | none => rfl
  | some j =>
    dsimp only
    split
    · rfl
    · rw [hasKey_insertSet]
      by_cases hq : q = "props"
      · subst hq
        rw [if_pos rfl, hasKey_eq_isSome_lookup, hc]
        rfl
      · rw [if_neg hq]

theorem lookup_fixProps_of_ne (nd : List (String × Json)) {q : String}
    (hq : q ≠ "props") :
    lookupKey (fixProps nd) q = lookupKey nd q := by
  unfold fixProps
  cases hc : lookupKey nd "props" with
  | none => rfl
  | some j =>
    dsimp only
    split
    · rfl
    · rw [lookup_insertSet, if_neg hq]

theorem lookup_fixProps_props (nd : List (String × Json)) :
    lookupKey (fixProps nd) "props" =
      (lookupKey nd "props").map (fun j => if isObj j then j else .obj []) := by
  unfold fixProps
  cases hc : lookupKey nd "props" with
  | none => simp [hc]
  | some j =>
    dsimp only
    split
    · next h => simp [hc, h]
    · next h =>
      rw [lookup_insertSet, if_pos rfl]
      simp [hc, h]

theorem lookup_objFixups_children (nd : List (String × Json)) :
    lookupKey (objFixups nd) "children" =
      (lookupKey nd "children").map (fun j => if isArr j then j else .arr []) := by
  unfold objFixups
  rw [lookup_fixProps_of_ne _ (by decide), lookup_fixChildren_children,
    lookup_fixType_of_ne _ (by decide)]

theorem lookup_objFixups_props (nd : List (String × Json)) :
    lookupKey (objFixups nd) "props" =
      (lookupKey nd "props").map (fun j => if isObj j then j else .obj []) := by
  unfold objFixups
  rw [lookup_fixProps_props, lookup_fixChildren_of_ne _ (by decide),
    lookup_fixType_of_ne _ (by decide)]

theorem hasKey_objFixups_children (nd : List (String × Json)) :
    hasKey (objFixups nd) "children" = hasKey nd "children" := by
  unfold objFixups
  rw [hasKey_fixProps, hasKey_fixChildren, hasKey_fixType_of_ne _ (by decide)]

theorem hasKey_objFixups_props (nd : List (String × Json)) :
    hasKey (objFixups nd) "props" = hasKey nd "props" := by
  unfold objFixups
  rw [hasKey_fixProps, hasKey_fixChildren, hasKey_fixType_of_ne _ (by decide)]

theorem hasKey_objFixups_type (nd : List (String × Json)) :
    hasKey (objFixups nd) "type_name" =
      (hasKey nd "type_name" ||
        ((hasKey nd "children" || hasKey nd "props") &&
          !hasKey nd "type_name")) := by
  unfold objFixups
  rw [hasKey_fixProps, hasKey_fixChildren]
  unfold fixType
  split
  · next h =>
    rw [hasKey_insertSet, if_pos rfl, h]
    simp_all
  · next h =>
    simp only [Bool.and_eq_true, Bool.or_eq_true, Bool.not_eq_true] at h
    cases ht : hasKey nd "type_name" <;> simp_all

theorem objFixups_nodup {nd : List (String × Json)}
    (hnd : (nd.map Prod.fst).Nodup) :
    ((objFixups nd).map Prod.fst).Nodup := by
  unfold objFixups fixType fixChildren fixProps
  repeat' split
  all_goals
    first
    | exact hnd
    | exact insertSet_nodup _ _ hnd
    | exact insertSet_nodup _ _ (insertSet_nodup _ _ hnd)
    | exact insertSet_nodup _ _ (insertSet_nodup _ _ (insertSet_nodup _ _ hnd))

theorem mem_objFixups {nd : List (String × Json)} {kv : String × Json}
    (h : kv ∈ objFixups nd) :
    kv ∈ nd ∨ kv = ("type_name", Json.str "VStack") ∨
      kv = ("children", Json.arr []) ∨ kv = ("props", Json.obj []) := by
  unfold objFixups at h
  have step3 : kv ∈ fixChildren (fixType nd) ∨ kv = ("props", Json.obj []) := by
    unfold fixProps at h
    cases hc : lookupKey (fixChildren (fixType nd)) "props" with
    | none => rw [hc] at h; exact Or.inl h
    | some j =>
      rw [hc] at h
      dsimp only at h
      split at h
      · exact Or.inl h
      · rcases mem_insertSet h with hm | hm
        · exact Or.inl hm
        · exact Or.inr hm
  rcases step3 with h2 | h2
  · have step2 : kv ∈ fixType nd ∨ kv = ("children", Json.arr []) := by
      unfold fixChildren at h2
      cases hc : lookupKey (fixType nd) "children" with
      | none => rw [hc] at h2; exact Or.inl h2
      | some j =>
        rw [hc] at h2
        dsimp only at h2
        split at h2
        · exact Or.inl h2
        · rcases mem_insertSet h2 with hm | hm
          · exact Or.inl hm
          · exact Or.inr hm
    rcases step2 with h3 | h3
    · unfold fixType at h3
      split at h3
      · rcases mem_insertSet h3 with hm | hm
        · exact Or.inl hm
        · exact Or.inr (Or.inl hm)
      · exact Or.inl h3
    · exact Or.inr (Or.inr (Or.inl h3))
  · exact Or.inr (Or.inr (Or.inr h2))

theorem fixType_objFixups (nd : List (String × Json)) :
    fixType (objFixups nd) = objFixups nd := by
  unfold fixType
  rw [hasKey_objFixups_children, hasKey_objFixups_props, hasKey_objFixups_type]
  split
  · next h =>
    exfalso
    cases hA : hasKey nd "children" <;> cases hB : hasKey nd "props" <;>
      cases hT : hasKey nd "type_name" <;> simp_all
  · rfl

theorem fixChildren_objFixups (nd : List (String × Json)) :
    fixChildren (objFixups nd) = objFixups nd := by
  unfold fixChildren
  rw [lookup_objFixups_children]
  cases hc : lookupKey nd "children" with
  | none => rfl
  | some j0 =>
    simp only [Option.map_some']
    have hj : isArr (if isArr j0 then j0 else Json.arr []) = true := by
      by_cases h0 : isArr j0 = true
      · rw [if_pos h0]; exact h0
      · rw [if_neg h0]; rfl
    rw [if_pos hj]

theorem fixProps_objFixups (nd : List (String × Json)) :
    fixProps (objFixups nd) = objFixups nd := by
  unfold fixProps
  rw [lookup_objFixups_props]
  cases hc : lookupKey nd "props" with
  | none => rfl
  | some j0 =>
    simp only [Option.map_some']
    have hj : isObj (if isObj j0 then j0 else Json.obj []) = true := by
      by_cases h0 : isObj j0 = true
      · rw [if_pos h0]; exact h0
      · rw [if_neg h0]; rfl
    rw [if_pos hj]

/-- The three structural fix-ups are jointly idempotent. -/
theorem objFixups_idem (nd : List (String × Json)) :
    objFixups (objFixups nd) = objFixups nd := by
  conv_lhs => rw [objFixups]
  rw [fixType_objFixups, fixChildren_objFixups, fixProps_objFixups]

theorem san_vstack : recursive_sanitize (.str "VStack") = .str "VStack" := rfl

theorem san_empty_arr : recursive_sanitize (.arr []) = .arr [] := rfl

theorem san_empty_obj : recursive_sanitize (.obj []) = .obj [] := rfl

/-- Idempotence of the sanitizer, by strong induction on `jsize`. -/
theorem san_idem_aux (n : Nat) :
    ∀ v, jsize v ≤ n →
      recursive_sanitize (recursive_sanitize v) = recursive_sanitize v := by
  induction n with
  | zero =>
    intro v h
    have := one_le_jsize v
    omega
  | succ n ih =>
    intro v hv
    cases v with
    | null => rfl
    | bool b => rfl
    | num m => rfl
    | str s =>
      rw [san_str s]
      split
      · next hbr =>
        cases hl : json_loads (pyStrip s) with
        | some w =>
          apply ih
          have h1 := json_loads_size hl
          have h2 := pyStrip_length_le s
          have h3 : jsize (Json.str s) = s.length + 1 := by simp [jsize]
          omega
        | none =>
          rw [san_str, pyStrip_idem, if_pos hbr, hl]
      · next hbr =>
        rw [san_str, pyStrip_idem, if_neg (by simp [hbr])]
    | arr items =>
      rw [san_arr, san_arr]
      congr 1
      have hmem : ∀ y ∈ (items.map recursive_sanitize).filter isObj,
          recursive_sanitize y = y ∧ isObj y = true := by
        intro y hy
        rw [List.mem_filter] at hy
        obtain ⟨hym, hyo⟩ := hy
        obtain ⟨x, hx, rfl⟩ := List.mem_map.mp hym
        refine ⟨ih _ ?_, hyo⟩
        have h1 := jsize_le_jsizeList hx
        have h3 : jsize (Json.arr items) = jsizeList items + 1 := by simp [jsize]
        omega
      have hmapid :
          ((items.map recursive_sanitize).filter isObj).map recursive_sanitize
            = (items.map recursive_sanitize).filter isObj := by
        conv_rhs =>
          rw [← List.map_id ((items.map recursive_sanitize).filter isObj)]
        exact List.map_congr_left (fun y hy => (hmem y hy).1)
      rw [hmapid, List.filter_eq_self.mpr (fun y hy => (hmem y hy).2)]
    | obj fs =>
      rw [san_obj, san_obj]
      congr 1
      have hval : ∀ kv ∈ objFixups
          (mkPyDict (fs.map fun kv => (kv.1, recursive_sanitize kv.2))),
          recursive_sanitize kv.2 = kv.2 := by
        intro kv hkv
        rcases mem_objFixups hkv with hm | hm | hm | hm
        · rcases mem_dictInsertAll hm with h0 | h0
          · cases h0
          · obtain ⟨kw, hkw, heq⟩ := List.mem_map.mp h0
            rw [← heq]
            apply ih
            have h1 := jsize_le_jsizeFields hkw
            have h3 : jsize (Json.obj fs) = jsizeFields fs + 1 := by
              simp [jsize]
            omega
        · rw [hm]; exact san_vstack
        · rw [hm]; exact san_empty_arr
        · rw [hm]; exact san_empty_obj
      rw [map_values_id hval]
      rw [mkPyDict_eq_self (objFixups_nodup (mkPyDict_nodup _))]
      exact objFixups_idem _

/-! ## The structural guarantee -/

theorem all_congr {α : Type} {l : List α} {p q : α → Bool}
    (h : ∀ a ∈ l, p a = q a) : l.all p = l.all q := by
  induction l with
  | nil => rfl
  | cons a as ih =>
    simp only [List.all_cons]
    rw [h a (by simp), ih (fun b hb => h b (List.mem_cons_of_mem _ hb))]

theorem nodeOKF_congr_aux (n : Nat) :
    ∀ v f g, jsize v ≤ n → jsize v ≤ f → jsize v ≤ g →
      nodeOKF f v = nodeOKF g v := by
  induction n with
  | zero =>
    intro v f g h0 _ _
    have := one_le_jsize v
    omega
  | succ n ih =>
    intro v f g hn hf hg
    have h1 := one_le_jsize v
    cases f with
    | zero => omega
    | succ f =>
      cases g with
      | zero => omega
      | succ g =>
        cases v with
        | null => rfl
        | bool b => rfl
        | num m => rfl
        | str s => rfl
        | arr items => rfl
        | obj fs =>
          simp only [nodeOKF]
          apply all_congr
          intro kv hkv
          have hkvs := jsize_le_jsizeFields hkv
          have hjs : jsize (Json.obj fs) = jsizeFields fs + 1 := by simp [jsize]
          congr 1
          by_cases hc : kv.1 = "children"
          · rw [if_pos hc, if_pos hc]
            cases hv2 : kv.2 with
            | arr ys =>
              apply all_congr
              intro y hy
              have hys := jsize_le_jsizeList hy
              have hja : jsize (Json.arr ys) = jsizeList ys + 1 := by
                simp [jsize]
              rw [hv2] at hkvs
              congr 1
              exact ih y f g (by omega) (by omega) (by omega)
            | null => rfl
            | bool b => rfl
            | num m => rfl
            | str s2 => rfl
            | obj fs2 => rfl
          · rw [if_neg hc, if_neg hc]

theorem nodeOKF_congr {v : Json} {f g : Nat} (hf : jsize v ≤ f)
    (hg : jsize v ≤ g) : nodeOKF f v = nodeOKF g v :=
  nodeOKF_congr_aux (jsize v) v f g le_rfl hf hg

theorem nodeOK_nonobj {v : Json} (h : isObj v = false) : nodeOK v = true := by
  cases v <;> first | rfl | (simp [isObj] at h)

theorem nodeOK_obj (fs : List (String × Json)) :
    nodeOK (.obj fs) =
      fs.all (fun kv =>
        (if kv.1 = "children" then
          (match kv.2 with
           | .arr ys => ys.all (fun y => isObj y && nodeOK y)
           | _ => false)
         else true) &&
        (if kv.1 = "props" then isObj kv.2 else true)) := by
  unfold nodeOK
  have hjs : jsize (Json.obj fs) = jsizeFields fs + 1 := by simp [jsize]
  rw [hjs]
  simp only [nodeOKF]
  apply all_congr
  intro kv hkv
  have hkvs := jsize_le_jsizeFields hkv
  congr 1
  by_cases hc : kv.1 = "children"
  · rw [if_pos hc, if_pos hc]
    cases hv2 : kv.2 with
    | arr ys =>
      apply all_congr
      intro y hy
      have hys := jsize_le_jsizeList hy
      have hja : jsize (Json.arr ys) = jsizeList ys + 1 := by simp [jsize]
      rw [hv2] at hkvs
      congr 1
      exact nodeOKF_congr (by omega) le_rfl
    | null => rfl
    | bool b => rfl
    | num m => rfl
    | str s2 => rfl
    | obj fs2 => rfl
  · rw [if_neg hc, if_neg hc]

/-- Every value in the sanitized dict body is a sanitizer output. -/
theorem value_of_sanFields {fs : List (String × Json)} {k : String} {j : Json}
    (h : (k, j) ∈ mkPyDict (fs.map fun kv => (kv.1, recursive_sanitize kv.2))) :
    ∃ kv ∈ fs, j = recursive_sanitize kv.2 := by
  rcases mem_dictInsertAll h with h0 | h0
  · cases h0
  · obtain ⟨kw, hkw, heq⟩ := List.mem_map.mp h0
    have hj : j = recursive_sanitize kw.2 := by
      have := congrArg Prod.snd heq
      simpa using this.symm
    exact ⟨kw, hkw, hj⟩

/-- Joint induction: the sanitizer output satisfies the structural
guarantee, and a sanitized sequence consists of guaranteed mappings. -/
theorem san_good_aux (n : Nat) :
    ∀ v, jsize v ≤ n →
      nodeOK (recursive_sanitize v) = true ∧
      arrPart (recursive_sanitize v) = true := by
  induction n with
  | zero =>
    intro v h
    have := one_le_jsize v
    omega
  | succ n ih =>
    intro v hv
    cases v with
    | null => exact ⟨rfl, rfl⟩
    | bool b => exact ⟨rfl, rfl⟩
    | num m => exact ⟨rfl, rfl⟩
    | str s =>
      rw [san_str s]
      split
      · cases hl : json_loads (pyStrip s) with
        | some w =>
          apply ih
          have h1 := json_loads_size hl
          have h2 := pyStrip_length_le s
          have h3 : jsize (Json.str s) = s.length + 1 := by simp [jsize]
          omega
        | none => exact ⟨rfl, rfl⟩
      · exact ⟨rfl, rfl⟩
    | arr items =>
      rw [san_arr]
      constructor
      · exact nodeOK_nonobj rfl
      · unfold arrPart
        rw [List.all_eq_true]
        intro y hy
        rw [List.mem_filter] at hy
        obtain ⟨hym, hyo⟩ := hy
        obtain ⟨x, hx, rfl⟩ := List.mem_map.mp hym
        have h1 := jsize_le_jsizeList hx
        have h3 : jsize (Json.arr items) = jsizeList items + 1 := by
          simp [jsize]
        have := (ih x (by omega)).1
        simp [hyo, this]
    | obj fs =>
      rw [san_obj]
      refine ⟨?_, rfl⟩
      rw [nodeOK_obj, List.all_eq_true]
      intro kv hkv
      have hnd3 := objFixups_nodup
        (mkPyDict_nodup (fs.map fun kv => (kv.1, recursive_sanitize kv.2)))
      have hlk : lookupKey
          (objFixups (mkPyDict (fs.map fun kv => (kv.1, recursive_sanitize kv.2))))
          kv.1 = some kv.2 := by
        apply mem_lookup_of_nodup hnd3
        exact (by simpa using hkv)
      have h3 : jsize (Json.obj fs) = jsizeFields fs + 1 := by simp [jsize]
      rw [Bool.and_eq_true]
      constructor
      · by_cases hc : kv.1 = "children"
        · rw [if_pos hc]
          rw [hc] at hlk
          rw [lookup_objFixups_children] at hlk
          cases hc0 : lookupKey
              (mkPyDict (fs.map fun kv => (kv.1, recursive_sanitize kv.2)))
              "children" with
          | none => rw [hc0] at hlk; cases hlk
          | some j0 =>
            rw [hc0] at hlk
            simp only [Option.map_some', Option.some.injEq] at hlk
            by_cases hj0 : isArr j0 = true
            · rw [if_pos hj0] at hlk
              obtain ⟨kw, hkw, hj0san⟩ := value_of_sanFields (lookup_mem hc0)
              have h1 := jsize_le_jsizeFields hkw
              have harr := (ih kw.2 (by omega)).2
              rw [← hj0san] at harr
              cases j0 with
              | arr ys =>
                rw [← hlk]
                unfold arrPart at harr
                exact harr
              | null => simp [isArr] at hj0
              | bool b => simp [isArr] at hj0
              | num m => simp [isArr] at hj0
              | str s2 => simp [isArr] at hj0
              | obj fs2 => simp [isArr] at hj0
            · rw [if_neg hj0] at hlk
              rw [← hlk]
              rfl
        · rw [if_neg hc]
      · by_cases hp : kv.1 = "props"
        · rw [if_pos hp]
          rw [hp] at hlk
          rw [lookup_objFixups_props] at hlk
          cases hc0 : lookupKey
              (mkPyDict (fs.map fun kv => (kv.1, recursive_sanitize kv.2)))
              "props" with
          | none => rw [hc0] at hlk; cases hlk
          | some j0 =>
            rw [hc0] at hlk
            simp only [Option.map_some', Option.some.injEq] at hlk
            by_cases hj0 : isObj j0 = true
            · rw [if_pos hj0] at hlk
              rw [← hlk]
              exact hj0
            · rw [if_neg hj0] at hlk
              rw [← hlk]
              rfl
        · rw [if_neg hp]

theorem hasKey_map_values (fs : List (String × Json)) (f : Json → Json)
    (q : String) :
    hasKey (fs.map fun kv => (kv.1, f kv.2)) q = hasKey fs q := by
  induction fs with
  | nil => rfl
  | cons p ps ih => simp [hasKey] at ih ⊢; rw [ih]

/-! ## Claim theorems -/

/-- C1: the sanitizer is idempotent: for every JSON value `x`,
`sanitize(sanitize(x))` equals `sanitize(x)`. -/
theorem sanitize_idempotent (x : Json) :
    recursive_sanitize (recursive_sanitize x) = recursive_sanitize x :=
  san_idem_aux (jsize x) x le_rfl

/-- C2: structural guarantee of the sanitizer output: for every mapping,
if the sanitized result contains a `children` key its value is a sequence
of mappings each again satisfying the guarantee, and a `props` key maps to
a mapping (`nodeOK`); and sequence elements that do not sanitize to a
mapping are dropped. -/
theorem sanitize_structural_guarantee (fs : List (String × Json))
    (xs : List Json) :
    nodeOK (recursive_sanitize (.obj fs)) = true ∧
    recursive_sanitize (.arr xs) =
      .arr ((xs.map recursive_sanitize).filter isObj) :=
  ⟨(san_good_aux (jsize (.obj fs)) _ le_rfl).1, san_arr xs⟩

/-- C8: default kind injection: a mapping whose sanitized body has a
`children` or `props` key but no `type_name` key gets
`type_name = "VStack"` (sanitizing values does not change the key set, so
the condition is stated on the input keys). -/
theorem sanitize_default_kind (fs : List (String × Json))
    (hcp : (hasKey fs "children" || hasKey fs "props") = true)
    (ht : hasKey fs "type_name" = false) :
    ∃ gs, recursive_sanitize (.obj fs) = .obj gs ∧
      lookupKey gs "type_name" = some (.str "VStack") := by
  rw [san_obj]
  refine ⟨_, rfl, ?_⟩
  have hkeys : ∀ q, hasKey
      (mkPyDict (fs.map fun kv => (kv.1, recursive_sanitize kv.2))) q =
      hasKey fs q := by
    intro q
    rw [hasKey_mkPyDict, hasKey_map_values]
  unfold objFixups
  rw [lookup_fixProps_of_ne _ (by decide), lookup_fixChildren_of_ne _ (by decide)]
  unfold fixType
  rw [hkeys, hkeys, hkeys, hcp, ht]
  simp only [Bool.not_false, Bool.and_self, if_pos]
  rw [lookup_insertSet, if_pos rfl]

/-- C8 witness: `sanitize({"children": []})` contains
`type_name = "VStack"`. -/
theorem sanitize_default_kind_witness :
    (hasKey [("children", Json.arr [])] "children" ||
      hasKey [("children", Json.arr [])] "props") = true ∧
    hasKey [("children", Json.arr [])] "type_name" = false ∧
    ∃ gs, recursive_sanitize (.obj [("children", Json.arr [])]) = .obj gs ∧
      lookupKey gs "type_name" = some (.str "VStack") :=
  ⟨rfl, rfl, sanitize_default_kind [("children", Json.arr [])] rfl rfl⟩

/-- C9: string handling of the sanitizer: the string is trimmed; if the
trimmed string is bracketed by braces or square brackets and parses as
JSON, the result is the recursive sanitization of the parsed value; on
parse failure (or when not bracketed) the trimmed string is kept. -/
theorem sanitize_string_case (s : String) :
    (∀ v, bracketed (pyStrip s).data = true →
      json_loads (pyStrip s) = some v →
      recursive_sanitize (.str s) = recursive_sanitize v) ∧
    (bracketed (pyStrip s).data = true → json_loads (pyStrip s) = none →
      recursive_sanitize (.str s) = .str (pyStrip s)) ∧
    (bracketed (pyStrip s).data = false →
      recursive_sanitize (.str s) = .str (pyStrip s)) := by
  refine ⟨?_, ?_, ?_⟩
  · intro v hbr hl
    rw [san_str, if_pos hbr, hl]
  · intro hbr hl
    rw [san_str, if_pos hbr, hl]
  · intro hbr
    rw [san_str, if_neg (by simp [hbr])]

/-- C9 witness: sanitizing the string-encoded mapping yields the mapping,
not the string; parse failure and the unbracketed case keep the trimmed
string. -/
theorem sanitize_string_case_witness :
    json_loads (pyStrip "\x7b\"a\": 1\x7d") = some (.obj [("a", .num 1)]) ∧
    recursive_sanitize (.str "\x7b\"a\": 1\x7d") = .obj [("a", .num 1)] ∧
    recursive_sanitize (.str "\x7boops\x7d") = .str "\x7boops\x7d" ∧
    recursive_sanitize (.str " hello ") = .str "hello" :=
  ⟨rfl,
   ((sanitize_string_case "\x7b\"a\": 1\x7d").1 (.obj [("a", .num 1)])
     rfl rfl).trans rfl,
   ((sanitize_string_case "\x7boops\x7d").2.1 rfl rfl).trans rfl,
   ((sanitize_string_case " hello ").2.2 rfl).trans rfl⟩

/-- C10: the sanitizer is total and terminating: a value parsed out of a
string is strictly smaller than the string in the `jsize` measure, so the
recursion is well-founded, and any fuel of at least `jsize v` computes the
same (full) result — the fuel never runs out. -/
theorem sanitize_terminates :
    (∀ s v, json_loads s = some v → jsize v < jsize (.str s)) ∧
    (∀ v fuel, jsize v ≤ fuel → sanitizeF fuel v = recursive_sanitize v) := by
  constructor
  · intro s v h
    have h1 := json_loads_size h
    have h2 : jsize (Json.str s) = s.length + 1 := by simp [jsize]
    omega
  · intro v fuel h
    exact sanitizeF_eq_sanitize h

/-- C10 witness: concrete instances of the decrease and of fuel
sufficiency. -/
theorem sanitize_terminates_witness :
    json_loads "\x7b\x7d" = some (.obj []) ∧
    jsize (Json.obj []) < jsize (.str "\x7b\x7d") ∧
    jsize (Json.obj [("a", .num 1)]) ≤ 99 ∧
    sanitizeF 99 (.obj [("a", .num 1)]) =
      recursive_sanitize (.obj [("a", .num 1)]) :=
  ⟨rfl, sanitize_terminates.1 "\x7b\x7d" (.obj []) rfl, by decide,
   sanitize_terminates.2 (.obj [("a", .num 1)]) 99 (by decide)⟩

/-- C7: bounded history: once the conversation history exceeds the
threshold of 6 messages, the next turn first truncates it back to only
the system message, so the new history is the system message, the user
message of the current turn, and whatever the turn appends — never the
prior transcript. -/
theorem history_bound (sys : Msg) (tail : List Msg) (u : Msg)
    (produced : List Msg) (h : 6 < (sys :: tail).length) :
    turnHistory (sys :: tail) u produced = sys :: u :: produced := by
  unfold turnHistory truncateHist
  rw [if_pos h]
  simp

/-- C7 witness: a seven-message history is truncated to the system
message plus the current turn. -/
theorem history_bound_witness :
    6 < ([⟨"system", "sp"⟩, ⟨"user", "a"⟩, ⟨"assistant", "b"⟩,
      ⟨"user", "c"⟩, ⟨"assistant", "d"⟩, ⟨"user", "e"⟩,
      ⟨"assistant", "f"⟩] : List Msg).length ∧
    turnHistory [⟨"system", "sp"⟩, ⟨"user", "a"⟩, ⟨"assistant", "b"⟩,
        ⟨"user", "c"⟩, ⟨"assistant", "d"⟩, ⟨"user", "e"⟩,
        ⟨"assistant", "f"⟩] ⟨"user", "g"⟩ [⟨"tool", "code"⟩] =
      [⟨"system", "sp"⟩, ⟨"user", "g"⟩, ⟨"tool", "code"⟩] :=
  ⟨by decide,
   history_bound ⟨"system", "sp"⟩ [⟨"user", "a"⟩, ⟨"assistant", "b"⟩,
     ⟨"user", "c"⟩, ⟨"assistant", "d"⟩, ⟨"user", "e"⟩, ⟨"assistant", "f"⟩]
     ⟨"user", "g"⟩ [⟨"tool", "code"⟩] (by decide)⟩

/-- C6: catalog resolution never fails: an empty tool list, a lookup that
yields nothing falsy, or a lookup that throws all resolve to the fixed
default catalog (length and order preserved as the literal list below);
a truthy enumeration becomes the catalog. -/
theorem catalog_resolution :
    resolveCatalog (.arr []) =
      .arr [.str "VStack", .str "HStack", .str "ZStack", .str "Button",
        .str "Label", .str "Input", .str "Image", .str "Chart"] ∧
    (∀ t e, enumChain t = .error e → resolveCatalog t = defaultCatalog) ∧
    (∀ t v, enumChain t = .ok v → pyTruthy v = false →
      resolveCatalog t = defaultCatalog) ∧
    (∀ t v, pyTruthy t = true → enumChain t = .ok v → pyTruthy v = true →
      resolveCatalog t = v) := by
  refine ⟨rfl, ?_, ?_, ?_⟩
  · intro t e h
    unfold resolveCatalog
    split
    · rw [h]
    · rfl
  · intro t v h hv
    unfold resolveCatalog
    split
    · rw [h]
      simp [hv]
    · rfl
  · intro t v ht h hv
    unfold resolveCatalog
    rw [if_pos ht, h]
    simp [hv]

/-- C6 witness: concrete instances — a tool descriptor without the
enumeration falls back (the chain returns the falsy `None`), a throwing
lookup falls back, and a present enumeration is adopted. -/
theorem catalog_resolution_witness :
    enumChain (.str "zz") = .error "AttributeError" ∧
    resolveCatalog (.str "zz") = defaultCatalog ∧
    enumChain (.arr [.obj [("name", .str "t")]]) = .ok .null ∧
    pyTruthy (.null : Json) = false ∧
    resolveCatalog (.arr [.obj [("name", .str "t")]]) = defaultCatalog ∧
    pyTruthy (.arr [.obj [("name", .str "t")]]) = true ∧
    enumChain (.arr [.obj [("inputSchema", .obj [("properties", .obj
      [("type_name", .obj [("enum", .arr [.str "A"])])])])]]) =
      .ok (.arr [.str "A"]) ∧
    resolveCatalog (.arr [.obj [("inputSchema", .obj [("properties", .obj
      [("type_name", .obj [("enum", .arr [.str "A"])])])])]]) =
      .arr [.str "A"] :=
  ⟨rfl,
   catalog_resolution.2.1 (.str "zz") "AttributeError" rfl,
   rfl, rfl,
   catalog_resolution.2.2.1 (.arr [.obj [("name", .str "t")]]) .null rfl rfl,
   rfl, rfl,
   catalog_resolution.2.2.2 _ (.arr [.str "A"]) rfl rfl rfl⟩

/-! ## Extractor lemmas -/

theorem parseValue_head_obj (fuel : Nat) (rest : List Char) (v : Json)
    (r : List Char) (h : parseValue (fuel + 1) ('{' :: rest) = some (v, r)) :
    isObj v = true := by
  rw [parseValue] at h
  have hsw : skipWs ('{' :: rest) = '{' :: rest := rfl
  rw [hsw] at h
  dsimp only at h
  rw [if_neg (by decide), if_neg (by decide), if_neg (by decide),
    if_neg (by decide), if_neg (by decide), if_pos rfl] at h
  split at h
  · simp only [Option.some.injEq, Prod.mk.injEq] at h
    obtain ⟨rfl, rfl⟩ := h
    rfl
  · rw [Option.map_eq_some'] at h
    obtain ⟨⟨fs2, r2⟩, hp, hf⟩ := h
    obtain ⟨rfl, rfl⟩ := Prod.mk.injEq .. ▸ hf
    rfl

theorem json_loads_head_obj {s : String} {v : Json}
    (hh : s.data.head? = some '{') (h : json_loads s = some v) :
    isObj v = true := by
  unfold json_loads at h
  cases hp : parseValue (2 * s.data.length + 2) s.data with
  | none => rw [hp] at h; simp at h
  | some p =>
    obtain ⟨w, r⟩ := p
    rw [hp] at h
    dsimp only at h
    by_cases hws : skipWs r = []
    · rw [if_pos hws] at h
      have hv : w = v := by simpa using h
      subst hv
      cases hd : s.data with
      | nil => rw [hd] at hh; simp at hh
      | cons c rest =>
        rw [hd] at hh
        simp at hh
        subst hh
        rw [hd] at hp
        have hfuel : 2 * ('{' :: rest).length + 2 =
            (2 * ('{' :: rest).length + 1) + 1 := rfl
        rw [hfuel] at hp
        exact parseValue_head_obj _ _ _ _ hp
    · rw [if_neg hws] at h
      simp at h

theorem mem_stripChars {l : List Char} {c : Char} (h : c ∈ stripChars l) :
    c ∈ l := by
  unfold stripChars at h
  rw [List.mem_reverse] at h
  have h1 := (List.dropWhile_suffix isPySpace).sublist.subset h
  rw [List.mem_reverse] at h1
  exact (List.dropWhile_suffix isPySpace).sublist.subset h1

theorem mem_splitFirst {sep : List Char} {c : Char} :
    ∀ {l b a}, splitFirst sep l = some (b, a) →
      (c ∈ b → c ∈ l) ∧ (c ∈ a → c ∈ l) := by
  intro l
  induction l with
  | nil => intro b a h; simp [splitFirst] at h
  | cons x xs ih =>
    intro b a h
    rw [splitFirst] at h
    split at h
    · simp only [Option.some.injEq, Prod.mk.injEq] at h
      obtain ⟨rfl, rfl⟩ := h
      constructor
      · intro hb
        cases hb
      · intro ha
        exact List.drop_subset _ _ ha
    · rw [Option.map_eq_some'] at h
      obtain ⟨⟨b2, a2⟩, hp, hf⟩ := h
      obtain ⟨rfl, rfl⟩ := Prod.mk.injEq .. ▸ hf
      constructor
      · intro hb
        rcases List.mem_cons.mp hb with rfl | hb2
        · simp
        · exact List.mem_cons_of_mem _ ((ih hp).1 hb2)
      · intro ha
        exact List.mem_cons_of_mem _ ((ih hp).2 ha)

theorem mem_beforeFirst {sep l : List Char} {c : Char}
    (h : c ∈ beforeFirst sep l) : c ∈ l := by
  unfold beforeFirst at h
  cases hs : splitFirst sep l with
  | none => rw [hs] at h; exact h
  | some p =>
    obtain ⟨b, a⟩ := p
    rw [hs] at h
    exact (mem_splitFirst hs).1 h

theorem mem_fencedNarrow {t : List Char} {c : Char}
    (h : c ∈ fencedNarrow t) : c ∈ t := by
  unfold fencedNarrow at h
  cases hs : splitFirst ("```json".data) t with
  | none => rw [hs] at h; exact h
  | some p =>
    obtain ⟨b, a⟩ := p
    rw [hs] at h
    dsimp only at h
    exact (mem_splitFirst hs).2 (mem_beforeFirst (mem_beforeFirst
      (mem_stripChars h)))

theorem findIdxC_eq_none {c : Char} {l : List Char} (h : c ∉ l) :
    findIdxC c l = none := by
  induction l with
  | nil => rfl
  | cons x xs ih =>
    rw [findIdxC, if_neg (by rintro rfl; exact h (by simp)),
      ih (fun hm => h (List.mem_cons_of_mem _ hm))]
    rfl

theorem findIdxC_drop {c : Char} :
    ∀ {l : List Char} {i : Nat}, findIdxC c l = some i →
      ∃ r, l.drop i = c :: r := by
  intro l
  induction l with
  | nil => intro i h; simp [findIdxC] at h
  | cons x xs ih =>
    intro i h
    by_cases hx : x = c
    · rw [findIdxC, if_pos hx] at h
      simp only [Option.some.injEq] at h
      subst h
      subst hx
      exact ⟨xs, rfl⟩
    · rw [findIdxC, if_neg hx, Option.map_eq_some'] at h
      obtain ⟨j, hj, rfl⟩ := h
      obtain ⟨r, hr⟩ := ih hj
      exact ⟨r, by simpa using hr⟩

/-- C5: the Response Extractor narrows to a fenced block when present and
parses the brace-delimited span: on the fenced example it returns the
mapping; on text without an opening (or without a closing) brace it
returns an absent result; and any successful extraction is a mapping. -/
theorem extractor_behaviour :
    extract_json_from_text "```json\n\x7b\"x\":1\x7d\n```" =
      some (.obj [("x", .num 1)]) ∧
    (∀ text : String, '{' ∉ text.data ∨ '}' ∉ text.data →
      extract_json_from_text text = none) ∧
    (∀ (text : String) (v : Json), extract_json_from_text text = some v →
      isObj v = true) := by
  refine ⟨rfl, ?_, ?_⟩
  · intro text h
    unfold extract_json_from_text
    dsimp only
    rcases h with h | h
    · rw [findIdxC_eq_none
        (fun hm => h (mem_stripChars (mem_fencedNarrow hm)))]
    · have hr : findIdxC '}'
          (fencedNarrow (stripChars text.data)).reverse = none := by
        apply findIdxC_eq_none
        intro hm
        rw [List.mem_reverse] at hm
        exact h (mem_stripChars (mem_fencedNarrow hm))
      unfold rfindC
      rw [hr]
      cases findIdxC '{' (fencedNarrow (stripChars text.data)) <;> rfl
  · intro text v h
    unfold extract_json_from_text at h
    dsimp only at h
    cases hf : findIdxC '{' (fencedNarrow (stripChars text.data)) with
    | none => rw [hf] at h; simp at h
    | some i =>
      rw [hf] at h
      cases he : rfindC '}' (fencedNarrow (stripChars text.data)) with
      | none => rw [he] at h; simp at h
      | some e =>
        rw [he] at h
        dsimp only at h
        obtain ⟨r, hr⟩ := findIdxC_drop hf
        cases hk : e + 1 - i with
        | zero =>
          rw [hk] at h
          rw [show ((fencedNarrow (stripChars text.data)).drop i).take 0
            = [] from rfl] at h
          cases h
        | succ k =>
          rw [hk, hr] at h
          exact json_loads_head_obj (by simp) h

/-- C5 witness: concrete absent results and a concrete mapping result. -/
theorem extractor_behaviour_witness :
    extract_json_from_text "no braces here" = none ∧
    extract_json_from_text "\x7b\x7d trailing" = some (.obj []) ∧
    isObj (Json.obj []) = true :=
  ⟨extractor_behaviour.2.1 "no braces here" (Or.inl (by decide)),
   rfl,
   extractor_behaviour.2.2 "\x7b\x7d trailing" (.obj []) rfl⟩

/-! ## Handshake (C3) and call_tool (C4) -/

/-- C3 counterexample: a malformed (non-JSON) `tools/list` reply line
makes the handshake raise `JSONDecodeError` (nothing catches it), instead
of yielding an empty tool list. -/
theorem handshake_malformed_raises :
    handshakeTools "\x7b\x7d" "oops" = .error "JSONDecodeError" := rfl

/-- C3 amended: a missing reply (closed stream) or a well-formed JSON
object reply lacking the result/tools shape yields the empty tool list;
the first reply only needs to be absent or well-formed JSON. -/
theorem handshake_degrades (l1 l2 : String)
    (h1 : l1 = "" ∨ ∃ j, json_loads l1 = some j)
    (h2 : l2 = "" ∨
      (∃ fs, json_loads l2 = some (.obj fs) ∧
        lookupKey fs "result" = none) ∨
      (∃ fs gs, json_loads l2 = some (.obj fs) ∧
        lookupKey fs "result" = some (.obj gs) ∧
        lookupKey gs "tools" = none)) :
    handshakeTools l1 l2 = .ok (.arr []) := by
  unfold handshakeTools
  have hr1 : ∃ j, recvLine l1 = .ok j := by
    by_cases he : l1 = ""
    · exact ⟨.obj [], by rw [recvLine, if_pos he]⟩
    · rcases h1 with rfl | ⟨j, hj⟩
      · exact absurd rfl he
      · exact ⟨j, by rw [recvLine, if_neg he, hj]⟩
  obtain ⟨j1, hj1⟩ := hr1
  rw [hj1]
  have hrecv2 : ∃ fs2, recvLine l2 = .ok (.obj fs2) ∧
      (lookupKey fs2 "result" = none ∨
       ∃ gs, lookupKey fs2 "result" = some (.obj gs) ∧
         lookupKey gs "tools" = none) := by
    rcases h2 with rfl | ⟨fs, hfs, hres⟩ | ⟨fs, gs, hfs, hres, htools⟩
    · exact ⟨[], by rw [recvLine, if_pos rfl], Or.inl rfl⟩
    · by_cases he : l2 = ""
      · rw [he] at hfs
        rw [show json_loads "" = none from rfl] at hfs
        cases hfs
      · exact ⟨fs, by rw [recvLine, if_neg he, hfs], Or.inl hres⟩
    · by_cases he : l2 = ""
      · rw [he] at hfs
        rw [show json_loads "" = none from rfl] at hfs
        cases hfs
      · exact ⟨fs, by rw [recvLine, if_neg he, hfs],
          Or.inr ⟨gs, hres, htools⟩⟩
  obtain ⟨fs2, hfs2, hshape⟩ := hrecv2
  rw [hfs2]
  dsimp only
  rcases hshape with hres | ⟨gs, hres, htools⟩
  · rw [show pyGetD (.obj fs2) "result" (.obj []) =
      .ok ((lookupKey fs2 "result").getD (.obj [])) from rfl, hres]
    rfl
  · rw [show pyGetD (.obj fs2) "result" (.obj []) =
      .ok ((lookupKey fs2 "result").getD (.obj [])) from rfl, hres]
    dsimp only [Option.getD]
    rw [show pyGetD (Json.obj gs) "tools" (.arr [])
      = .ok ((lookupKey gs "tools").getD (.arr [])) from rfl, htools]
    rfl

/-- C3 amended witness: a closed stream on `initialize` and a shapeless
object reply on `tools/list` produce the empty tool list. -/
theorem handshake_degrades_witness :
    handshakeTools "" "\x7b\"id\":2\x7d" = .ok (.arr []) :=
  handshake_degrades "" "\x7b\"id\":2\x7d" (Or.inl rfl)
    (Or.inr (Or.inl ⟨[("id", .num 2)], rfl, rfl⟩))

/-- C4 counterexample: a reply whose error object lacks a `message` entry
makes `call_tool` raise `KeyError` (the message lookup is outside the
exception handler), instead of returning a formatted error string. -/
theorem call_tool_error_raises :
    call_tool_reply (.obj [("error", .obj [])]) = .error "KeyError" := rfl

/-- C4 amended: when the error entry is a mapping with a `message` entry,
the formatted error string is returned; when there is no error entry and
the nested text is present under the expected container types, it is
returned; when the nesting breaks off with a missing key or index, the
reply is stringified. -/
theorem call_tool_reply_amended :
    (∀ fs eo m, lookupKey fs "error" = some (.obj eo) →
      lookupKey eo "message" = some m →
      call_tool_reply (.obj fs) = .ok (.str ("❌ Error: " ++ pyStr m))) ∧
    (∀ fs rs c0 t rest, hasKey fs "error" = false →
      lookupKey fs "result" = some (.obj rs) →
      lookupKey rs "content" = some (.arr (.obj c0 :: rest)) →
      lookupKey c0 "text" = some t →
      call_tool_reply (.obj fs) = .ok t) ∧
    (∀ fs, hasKey fs "error" = false →
      (lookupKey fs "result" = none ∨
       (∃ rs, lookupKey fs "result" = some (.obj rs) ∧
         lookupKey rs "content" = none) ∨
       (∃ rs, lookupKey fs "result" = some (.obj rs) ∧
         lookupKey rs "content" = some (.arr [])) ∨
       (∃ rs c0 rest, lookupKey fs "result" = some (.obj rs) ∧
         lookupKey rs "content" = some (.arr (.obj c0 :: rest)) ∧
         lookupKey c0 "text" = none)) →
      call_tool_reply (.obj fs) = .ok (.str (pyStr (.obj fs)))) := by
  refine ⟨?_, ?_, ?_⟩
  · intro fs eo m herr hmsg
    have hk : hasKey fs "error" = true := by
      rw [hasKey_eq_isSome_lookup, herr]
      rfl
    unfold call_tool_reply
    rw [show pyIn "error" (.obj fs) = .ok (hasKey fs "error") from rfl, hk]
    dsimp only
    rw [show pySubscript (.obj fs) "error" =
      (match lookupKey fs "error" with
       | some v => .ok v
       | none => .error "KeyError") from rfl, herr]
    dsimp only
    rw [show pySubscript (.obj eo) "message" =
      (match lookupKey eo "message" with
       | some v => .ok v
       | none => .error "KeyError") from rfl, hmsg]
  · intro fs rs c0 t rest hk hres hcont htext
    unfold call_tool_reply
    rw [show pyIn "error" (.obj fs) = .ok (hasKey fs "error") from rfl, hk]
    dsimp only
    rw [show extractText (.obj fs) =
      (match pySubscript (.obj fs) "result" with
       | .error e => .error e
       | .ok r =>
         match pySubscript r "content" with
         | .error e => .error e
         | .ok c =>
           match pyIndexNat c 0 with
           | .error e => .error e
           | .ok c2 => pySubscript c2 "text") from rfl]
    rw [show pySubscript (.obj fs) "result" =
      (match lookupKey fs "result" with
       | some v => .ok v
       | none => .error "KeyError") from rfl, hres]
    dsimp only
    rw [show pySubscript (Json.obj rs) "content" =
      (match lookupKey rs "content" with
       | some v => .ok v
       | none => .error "KeyError") from rfl, hcont]
    dsimp only
    rw [show pyIndexNat (.arr (Json.obj c0 :: rest)) 0 =
      .ok (.obj c0) from rfl]
    dsimp only
    rw [show pySubscript (Json.obj c0) "text" =
      (match lookupKey c0 "text" with
       | some v => .ok v
       | none => .error "KeyError") from rfl, htext]
  · intro fs hk hshape
    unfold call_tool_reply
    rw [show pyIn "error" (.obj fs) = .ok (hasKey fs "error") from rfl, hk]
    dsimp only
    have hex : extractText (.obj fs) = .error "KeyError" ∨
        extractText (.obj fs) = .error "IndexError" := by
      unfold extractText
      rcases hshape with hres | ⟨rs, hres, hcont⟩ | ⟨rs, hres, hcont⟩ |
        ⟨rs, c0, rest, hres, hcont, htext⟩
      · rw [show pySubscript (.obj fs) "result" =
          (match lookupKey fs "result" with
           | some v => .ok v
           | none => .error "KeyError") from rfl, hres]
        exact Or.inl rfl
      · rw [show pySubscript (.obj fs) "result" =
          (match lookupKey fs "result" with
           | some v => .ok v
           | none => .error "KeyError") from rfl, hres]
        dsimp only
        rw [show pySubscript (Json.obj rs) "content" =
          (match lookupKey rs "content" with
           | some v => .ok v
           | none => .error "KeyError") from rfl, hcont]
        exact Or.inl rfl
      · rw [show pySubscript (.obj fs) "result" =
          (match lookupKey fs "result" with
           | some v => .ok v
           | none => .error "KeyError") from rfl, hres]
        dsimp only
        rw [show pySubscript (Json.obj rs) "content" =
          (match lookupKey rs "content" with
           | some v => .ok v
           | none => .error "KeyError") from rfl, hcont]
        dsimp only
        exact Or.inr rfl
      · rw [show pySubscript (.obj fs) "result" =
          (match lookupKey fs "result" with
           | some v => .ok v
           | none => .error "KeyError") from rfl, hres]
        dsimp only
        rw [show pySubscript (Json.obj rs) "content" =
          (match lookupKey rs "content" with
           | some v => .ok v
           | none => .error "KeyError") from rfl, hcont]
        dsimp only
        rw [show pyIndexNat (.arr (Json.obj c0 :: rest)) 0 =
          .ok (.obj c0) from rfl]
        dsimp only
        rw [show pySubscript (Json.obj c0) "text" =
          (match lookupKey c0 "text" with
           | some v => .ok v
           | none => .error "KeyError") from rfl, htext]
        exact Or.inl rfl
    rcases hex with hex | hex <;> rw [hex] <;> rfl

/-- C4 amended witness: the three reply shapes at concrete inputs. -/
theorem call_tool_reply_amended_witness :
    call_tool_reply (.obj [("error", .obj [("message", .str "boom")])]) =
      .ok (.str "❌ Error: boom") ∧
    call_tool_reply (.obj [("result", .obj [("content",
      .arr [.obj [("text", .str "code")]])])]) = .ok (.str "code") ∧
    call_tool_reply (.obj [("id", .num 3)]) =
      .ok (.str (pyStr (.obj [("id", .num 3)]))) :=
  ⟨(call_tool_reply_amended.1 [("error", .obj [("message", .str "boom")])]
      [("message", .str "boom")] (.str "boom") rfl rfl).trans rfl,
   call_tool_reply_amended.2.1
     [("result", .obj [("content", .arr [.obj [("text", .str "code")]])])]
     [("content", .arr [.obj [("text", .str "code")]])]
     [("text", .str "code")] (.str "code") [] rfl rfl rfl rfl,
   call_tool_reply_amended.2.2 [("id", .num 3)] rfl (Or.inl rfl)⟩

end Oxidx
